import Mathlib

/-!
Verification of the Bar-function gadgets of `src/constraint_system/zelbet.rs`
(the "zelbet" substitution layer of the plonk repository).

The Rust code is shallowly embedded as follows.

* A `BlsScalar` is four 64-bit limbs; the field element it denotes is
  `limbs * R⁻¹ mod MODULUS` (Montgomery representation with `R = 2^256 mod
  MODULUS`).  We model limb contents as a `Nat`.
  - `BlsScalar::from_raw v` stores `toMont v = v * R % MODULUS`.
  - `Scalar::reduce` (read the canonical value) is `fromMont l = l * RINV %
    MODULUS`.
  - Scalar multiplication is Montgomery multiplication `montMul a b =
    a * b * RINV % MODULUS`.
* The `StandardComposer` is a witness vector (list of stored limb values,
  a `Variable` is an index into it) together with the list of emitted gates
  and the index of the dedicated zero wire.
* `composer.add_input s` appends the scalar and returns the fresh index;
  `big_add`/`big_mul` additionally append a gate and compute the output
  witness with field arithmetic exactly as the composer does;
  `constrain_to_constant` appends an equality-to-public-constant gate;
  `range_gate` (available on the composer but never called by this file's
  gadgets) would append a `Gate.range`.
* `u256` arithmetic (`%`, `-`, comparisons) on 256-bit values is `Nat`
  arithmetic, exact because no operation here can wrap.
-/

namespace Zelbet

/-- Order of the BLS12-381 scalar field (the `MODULUS` of `dusk-bls12-381`). -/
def MODULUS : Nat :=
  52435875175126190479447740508185965837690552500527637822603658699938581184513

/-- Montgomery radix `2^256 mod MODULUS` (`R` of `dusk-bls12-381`). -/
def R : Nat :=
  10920338887063814464675503992315976177888879664585288394250266608035967270910

/-- Inverse of `2^256` modulo `MODULUS`. -/
def RINV : Nat :=
  12549076656233958353659347336803947287922716146853412054870763148006372261952

/-- Montgomery multiplication of two limb values: `Scalar::mul` of
`dusk-bls12-381` computes `a * b * 2^-256 mod MODULUS`. -/
def montMul (a b : Nat) : Nat := a * b * RINV % MODULUS

/-- `BlsScalar::from_raw`: limbs of the Montgomery form of a raw value. -/
def toMont (v : Nat) : Nat := v * R % MODULUS

/-- `Scalar::reduce`: canonical (raw) value denoted by limb contents. -/
def fromMont (l : Nat) : Nat := l * RINV % MODULUS

/-- Radix moduli, `zelbet.rs` `DECOMPOSITION_S_I` (raw single-limb values). -/
def DECOMPOSITION_S_I : List Nat :=
  [693, 696, 694, 668, 679, 695, 691, 693, 700, 688, 700, 694, 701, 694,
   699, 701, 701, 701, 695, 698, 697, 703, 702, 691, 688, 703, 679]

/-- Precomputed modular inverses, `zelbet.rs` `INVERSES_S_I`; each entry is
the limb value (Montgomery form of `s⁻¹`), four limbs combined into one
natural number. -/
def INVERSES_S_I : List Nat :=
  [50257346977158519903056241271901583394522966435807989614145858071237018576894,
   15234148167043899843840688342882013039355431730993057655977283511487973227791,
   49580481921858565949542353425594106002453733890505354034614193622143725107077,
   487328727451827780451140639283580495814419453095435801392024279652196787991,
   12912682611389009756306992884918074036925200511417821509232785374812634793939,
   36230417874744798913092936615714502990315617381176764666538138766300079044370,
   33784203750822313426655455904681723261867126978870309868962197377830252669145,
   50257346977158519903056241271901583394522966435807989614145858071237018576894,
   17244530898808696606768079744107268741209594221122774267990131096562728056727,
   28215398479191503331192353912821400197853769338459028027263959281373998554565,
   17244530898808696606768079744107268741209594221122774267990131096562728056727,
   49580481921858565949542353425594106002453733890505354034614193622143725107077,
   36593528244684409356511584325956138760069285381487304113619742326502142890867,
   49580481921858565949542353425594106002453733890505354034614193622143725107077,
   14268578858599484986494629757578897690041622109820939162645129355645731605620,
   36593528244684409356511584325956138760069285381487304113619742326502142890867,
   36593528244684409356511584325956138760069285381487304113619742326502142890867,
   36593528244684409356511584325956138760069285381487304113619742326502142890867,
   36230417874744798913092936615714502990315617381176764666538138766300079044370,
   44488479144071301688105641668822933742250280744952645958990854179042515800147,
   19650909267711620558967770124288167948084825082212767231124541158238171673499,
   1805663361436831274497043067124863664697670184462658031488958855485863322474,
   30789887337662470501420433893682242024652986481313350528927290101115002016083,
   33784203750822313426655455904681723261867126978870309868962197377830252669145,
   28215398479191503331192353912821400197853769338459028027263959281373998554565,
   1805663361436831274497043067124863664697670184462658031488958855485863322474,
   12912682611389009756306992884918074036925200511417821509232785374812634793939]

/-- Substitution table, `zelbet.rs` `SBOX_BLS`; each `u256([a, b, c, d])`
entry is combined into the natural number `a + b*2^64 + c*2^128 + d*2^192`.
Entry 319 (line 746 of the source, `u256([67, 10, 0, 0])`) is
`67 + 10 * 2^64`. -/
def SBOX_BLS : List Nat :=
[
  15, 187, 186, 168, 493, 102, 296, 11, 164, 155,
  527, 103, 192, 589, 543, 450, 647, 72, 343, 386,
  279, 616, 225, 140, 313, 586, 276, 57, 162, 68,
  179, 445, 418, 364, 46, 591, 541, 218, 0, 437,
  618, 157, 657, 49, 120, 469, 142, 325, 183, 123,
  23, 468, 619, 217, 472, 226, 212, 406, 4, 499,
  182, 51, 141, 86, 596, 70, 149, 355, 351, 245,
  52, 193, 311, 244, 375, 300, 399, 590, 143, 24,
  190, 517, 208, 539, 544, 236, 393, 34, 203, 60,
  151, 243, 542, 299, 368, 289, 272, 567, 280, 599,
  625, 341, 462, 509, 153, 374, 213, 477, 310, 347,
  572, 71, 579, 158, 412, 587, 63, 172, 640, 173,
  101, 439, 5, 92, 501, 500, 330, 633, 630, 328,
  488, 356, 89, 224, 383, 96, 643, 585, 422, 41,
  295, 642, 571, 247, 239, 600, 561, 319, 480, 570,
  652, 134, 620, 484, 525, 333, 177, 209, 8, 211,
  402, 478, 574, 148, 365, 83, 635, 44, 646, 204,
  414, 413, 398, 449, 363, 588, 65, 617, 658, 126,
  178, 536, 624, 201, 513, 506, 384, 336, 382, 348,
  223, 316, 629, 88, 18, 278, 287, 524, 257, 421,
  639, 424, 452, 511, 564, 538, 214, 514, 307, 31,
  93, 471, 104, 528, 234, 352, 255, 534, 580, 113,
  360, 526, 614, 532, 603, 537, 1, 370, 121, 430,
  32, 417, 426, 391, 644, 358, 206, 3, 504, 13,
  557, 444, 284, 584, 39, 251, 176, 508, 94, 156,
  33, 273, 496, 246, 321, 58, 21, 165, 638, 436,
  10, 145, 194, 498, 267, 292, 90, 497, 505, 510,
  80, 435, 303, 42, 533, 529, 453, 329, 428, 35,
  337, 269, 229, 297, 85, 562, 440, 357, 95, 50,
  559, 446, 656, 606, 457, 459, 390, 59, 611, 306,
  623, 188, 650, 582, 170, 249, 16, 380, 230, 130,
  169, 138, 612, 207, 227, 598, 47, 483, 73, 184467440737095516227,
  106, 175, 655, 22, 77, 133, 283, 377, 112, 232,
  429, 117, 111, 332, 6, 324, 7, 409, 302, 260,
  216, 320, 166, 475, 465, 45, 366, 519, 335, 200,
  215, 205, 262, 419, 147, 237, 282, 359, 174, 379,
  441, 551, 473, 605, 427, 474, 387, 84, 171, 222,
  37, 565, 48, 549, 161, 521, 566, 518, 568, 403,
  597, 397, 154, 649, 53, 522, 416, 240, 372, 645,
  261, 314, 309, 395, 373, 20, 119, 27, 608, 340,
  609, 361, 503, 241, 602, 30, 275, 569, 423, 454,
  150, 621, 415, 344, 535, 411, 540, 199, 442, 371,
  404, 210, 322, 432, 492, 560, 250, 132, 627, 233,
  202, 304, 641, 338, 74, 575, 408, 425, 291, 135,
  318, 601, 159, 489, 556, 385, 548, 554, 81, 362,
  108, 270, 405, 136, 576, 55, 389, 354, 604, 388,
  97, 198, 317, 334, 458, 491, 259, 583, 369, 129,
  546, 87, 327, 266, 401, 550, 69, 274, 615, 400,
  181, 353, 196, 456, 595, 420, 122, 392, 185, 516,
  466, 476, 75, 235, 530, 448, 594, 378, 455, 447,
  577, 285, 99, 558, 653, 410, 461, 160, 331, 290,
  563, 613, 219, 394, 29, 552, 9, 189, 298, 137,
  56, 636, 12, 581, 2, 109, 339, 127, 36, 443,
  573, 523, 451, 479, 286, 28, 116, 312, 628, 545,
  54, 82, 651, 482, 131, 26, 396, 271, 593, 124,
  107, 515, 114, 407, 654, 268, 342, 277, 254, 14,
  79, 191, 43, 252, 512, 256, 220, 381, 66, 481,
  19, 228, 367, 487, 434, 349, 144, 460, 91, 495,
  78, 195, 490, 67, 486, 64, 105, 467, 231, 507,
  376, 248, 631, 520, 464, 221, 433, 622, 531, 197,
  61, 163, 98, 648, 146, 238, 494, 125, 76, 242,
  463, 326, 38, 152, 438, 345, 637, 40, 17, 281,
  323, 110, 118, 578, 139, 315, 115, 62, 470, 293,
  265, 258, 553, 301, 610, 555, 305, 634, 308, 626,
  180, 253, 350, 502, 184, 431, 294, 264, 288, 632,
  25, 607, 485, 592, 263, 128, 547, 100, 346]

/-- Gates emitted by the composer operations the zelbet gadgets use.
Operand fields are witness indices; `w1`/`w2` are the (raw) field values of
the selector coefficients of an addition gate; the `k` of `constrain` is the
limb value of the public constant. -/
inductive Gate : Type
  | bigAdd (w1 a w2 b out : Nat)
  | bigMul (a b d out : Nat)
  | constrain (v k : Nat)
  | range (v bits : Nat)
deriving DecidableEq, Repr

/-- `StandardComposer` state: the witness vector (`variables`, limb values
indexed by `Variable`), the emitted gates, and the dedicated zero wire. -/
structure Composer : Type where
  vars : List Nat
  gates : List Gate
  zero_var : Nat
deriving DecidableEq, Repr

/-- `composer.add_input scalar`: allocate a fresh witness storing the limb
value `l`, returning the new composer and the fresh `Variable`. -/
def add_input (c : Composer) (l : Nat) : Composer × Nat :=
  (⟨c.vars ++ [l], c.gates, c.zero_var⟩, c.vars.length)

/-- `composer.big_add ((w1, a), (w2, b), None, 0, 0)`: emit an addition gate
and allocate its output witness `w1·a + w2·b` (field arithmetic on limbs;
`w1`, `w2` are the raw field values of the coefficient scalars, `1` for
`BlsScalar::one()` and `MODULUS - 1` for `-BlsScalar::one()`). -/
def big_add (c : Composer) (w1 a w2 b : Nat) : Composer × Nat :=
  let l := (w1 * c.vars.getD a 0 + w2 * c.vars.getD b 0) % MODULUS
  (⟨c.vars ++ [l], c.gates ++ [Gate.bigAdd w1 a w2 b c.vars.length],
    c.zero_var⟩, c.vars.length)

/-- `composer.big_mul (one, a, b, Some((one, d)), 0, 0)`: emit a
multiplication gate and allocate its output witness `a·b + d`, computed as
the composer does with Montgomery limb arithmetic. -/
def big_mul (c : Composer) (a b d : Nat) : Composer × Nat :=
  let l := (montMul (c.vars.getD a 0) (c.vars.getD b 0) + c.vars.getD d 0)
    % MODULUS
  (⟨c.vars ++ [l], c.gates ++ [Gate.bigMul a b d c.vars.length],
    c.zero_var⟩, c.vars.length)

/-- `composer.constrain_to_constant v k 0`: emit an equality-to-public-
constant gate; allocates nothing. -/
def constrain_to_constant (c : Composer) (v k : Nat) : Composer :=
  ⟨c.vars, c.gates ++ [Gate.constrain v k], c.zero_var⟩

/-- Mixed-radix digit extraction, the pure arithmetic of the
`(0..27).for_each` loop of `decomposition_gadget` (lines 33-53): for each
radix/inverse pair but the last, take `r % s` and step to
`(r - r % s) · s⁻¹` by Montgomery multiplication; the final digit is the
remaining `r` with no further reduction. -/
def decomposeDigits : List (Nat × Nat) → Nat → List Nat
  | [], _ => []
  | [_], r => [r]
  | p :: p2 :: rest, r =>
    (r % p.1) :: decomposeDigits (p2 :: rest) (montMul (r - r % p.1) p.2)

/-- The digit loop of `decomposition_gadget` (lines 33-53) acting on the
composer: for each digit it allocates the raw-form witness (`nibbles`) and
then the Montgomery-form witness (`nibbles_montgomery`).  Returns the final
composer and both index vectors. -/
def decompose_loop (c : Composer) :
    List (Nat × Nat) → Nat → Composer × List Nat × List Nat
  | [], _ => (c, [], [])
  | [_], r =>
    let (c1, n) := add_input c r
    let (c2, nm) := add_input c1 (toMont r)
    (c2, [n], [nm])
  | p :: p2 :: rest, r =>
    let m := r % p.1
    let (c1, n) := add_input c m
    let (c2, nm) := add_input c1 (toMont m)
    let (c3, ns, nms) := decompose_loop c2 (p2 :: rest) (montMul (r - m) p.2)
    (c3, n :: ns, nm :: nms)

/-- The even range bound computed (and discarded) at lines 48-52 of
`decomposition_gadget`: an odd radix is bumped to the next even number. -/
def rangeBound (s : Nat) : Nat := if s % 2 == 1 then s + 1 else s

/-- The Horner fold loop shared by the recomposition checks: for each
`(modulus, digitVar)` pair, allocate the Montgomery-form modulus as a fresh
witness and emit `acc ← acc · modulus + digitVar` as a multiplication gate. -/
def horner_fold (c : Composer) (acc : Nat) :
    List (Nat × Nat) → Composer × Nat
  | [] => (c, acc)
  | p :: rest =>
    let (c1, sVar) := add_input c (toMont p.1)
    let (c2, acc') := big_mul c1 acc sVar p.2
    horner_fold c2 acc' rest

/-- The recomposition check of `decomposition_gadget` (zelbet.rs lines
55-93): allocate `s_i[25]` in both forms, emit the two unused difference
gates, seed the accumulator with `nibbles[26] · s_i[25] + nibbles[25]`,
fold through the remaining moduli/digit pairs, and pin the accumulator to
the reduced input with an equality-to-constant gate.  Returns the final
composer and the accumulator handle. -/
def decomp_check (c1 : Composer) (nibbles nibbles_montgomery : List Nat)
    (s_i : List Nat) (reduced_input : Nat) : Composer × Nat :=
  let t1 := add_input c1 (toMont (s_i.getD 25 0))
  let t2 := add_input t1.1 (s_i.getD 25 0)
  let t3 := big_add t2.1 1 t1.2 (MODULUS - 1) (nibbles_montgomery.getD 25 0)
  let t4 := big_add t3.1 1 t2.2 (MODULUS - 1) (nibbles.getD 25 0)
  let t5 := big_mul t4.1 (nibbles.getD 26 0) t1.2 (nibbles.getD 25 0)
  let t6 := horner_fold t5.1 t5.2 (((s_i.take 25).zip
    (nibbles.take 25)).reverse)
  (constrain_to_constant t6.1 t6.2 reduced_input, t6.2)

/-- `StandardComposer::decomposition_gadget` (zelbet.rs lines 21-96): run
the digit loop, then the recomposition check, and return the raw-form digit
handles. -/
def decomposition_gadget (c : Composer) (x : Nat)
    (s_i s_i_inv : List Nat) : Composer × List Nat :=
  let reduced_input := fromMont (c.vars.getD x 0)
  let res := decompose_loop c (s_i.zip s_i_inv) reduced_input
  ((decomp_check res.1 res.2.1 res.2.2 s_i reduced_input).1, res.2.1)

/-- Pure value of the substitution (zelbet.rs lines 102-106): table lookup
through the low 64-bit limb for values below 659, identity otherwise. -/
def sboxFn (v : Nat) : Nat :=
  if v < 659 then SBOX_BLS.getD (v % 2 ^ 64) 0 else v

/-- `StandardComposer::s_box` (zelbet.rs lines 101-113): read the stored
limbs of the input witness, substitute, and allocate the result in
Montgomery form (`from_raw`). -/
def s_box (c : Composer) (input : Nat) : Composer × Nat :=
  let value := c.vars.getD input 0
  add_input c (toMont (sboxFn value))

/-- The `(0..27).for_each` substitution loop of `bar_gadget` (lines
122-124), applying `s_box` to each digit handle in order. -/
def sbox_all (c : Composer) : List Nat → Composer × List Nat
  | [] => (c, [])
  | i :: is =>
    let (c1, o) := s_box c i
    let (c2, os) := sbox_all c1 is
    (c2, o :: os)

/-- `bar_gadget` (zelbet.rs lines 117-149): decompose, substitute each
digit, and recompose least-significant-last by the Horner fold, seeding the
accumulator with `zero_var + tuple[26]`. -/
def bar_gadget (c : Composer) (input : Nat) : Composer × Nat :=
  let res := decomposition_gadget c input DECOMPOSITION_S_I INVERSES_S_I
  let c1 := res.1
  let (c2, tuple) := sbox_all c1 res.2
  let (c3, acc0) := big_add c2 1 c2.zero_var 1 (tuple.getD 26 0)
  horner_fold c3 acc0
    (((DECOMPOSITION_S_I.take 26).zip (tuple.take 26)).reverse)

/-- Radix/inverse pairs actually passed by `bar_gadget`. -/
def decompPairs : List (Nat × Nat) := DECOMPOSITION_S_I.zip INVERSES_S_I

/-- Mixed-radix Horner recombination: digits least-significant-first,
weighted by the moduli; the last modulus is unused. -/
def recombine : List Nat → List Nat → Nat
  | _, [] => 0
  | _, [d] => d
  | [], _ :: _ :: _ => 0
  | s :: ss, d :: d2 :: ds => d + s * recombine ss (d2 :: ds)

/-- The Bar function: decompose the reduced value into 27 digits,
substitute each digit through `sboxFn`, recombine modulo the field order. -/
def barFn (r : Nat) : Nat :=
  recombine DECOMPOSITION_S_I ((decomposeDigits decompPairs r).map sboxFn)
    % MODULUS

/-- A composer as produced by `StandardComposer::new`: the zero wire is
allocated at index 0. -/
def initComposer : Composer := ⟨[0], [], 0⟩

/-- A fresh composer after `add_input` of the raw value `v`: witness 1
stores the Montgomery form of `v`. -/
def exampleComposer (v : Nat) : Composer := ⟨[0, toMont v], [], 0⟩

/-- A composer holding the zero wire and one raw (non-Montgomery) stored
limb value `v` at index 1, as `s_box` reads its input. -/
def rawComposer (v : Nat) : Composer := ⟨[0, v], [], 0⟩

/-- Whether a gate is a range-check gate. -/
def isRange : Gate → Bool
  | Gate.range _ _ => true
  | _ => false

/-- Whether a gate is an equality-to-public-constant gate on witness `o`. -/
def constrainsVar : Gate → Nat → Bool
  | Gate.constrain v _, o => v == o
  | _, _ => false

/-- Whether a gate, if it is an equality-to-constant gate, constrains a
witness with index below `n` (vacuously true for other gates). -/
def constrainIndexLt : Gate → Nat → Bool
  | Gate.constrain v _, n => decide (v < n)
  | _, _ => true

/-- A radix/inverse pair is well formed when the radix is positive and the
inverse entry is the Montgomery form of the radix's modular inverse. -/
def GoodPair (p : Nat × Nat) : Prop :=
  0 < p.1 ∧ p.1 * p.2 % MODULUS = R

instance : DecidablePred GoodPair := fun p =>
  inferInstanceAs (Decidable (0 < p.1 ∧ p.1 * p.2 % MODULUS = R))

/-- Witness value computed by one Horner-fold multiplication gate: the
accumulator limbs times the Montgomery form of the modulus, plus the digit
witness's stored limbs, reduced modulo the field order. -/
def foldStep (a : Nat) (p : Nat × Nat) : Nat :=
  (montMul a (toMont p.1) + p.2) % MODULUS

/-- The composer `c'` is reachable from `c` by appending witnesses and
gates (the zero wire never moves). -/
def Extends (c c' : Composer) : Prop :=
  (∃ t, c'.vars = c.vars ++ t) ∧ c'.zero_var = c.zero_var ∧
  ∃ gs, c'.gates = c.gates ++ gs

/-! Arithmetic facts about the Montgomery representation. -/

theorem modulus_pos : 0 < MODULUS := by decide

theorem r_mul_rinv : R * RINV % MODULUS = 1 := by decide

theorem one_mod_modulus : 1 % MODULUS = 1 := by decide

theorem fromMont_lt (l : Nat) : fromMont l < MODULUS :=
  Nat.mod_lt _ modulus_pos

theorem toMont_lt (v : Nat) : toMont v < MODULUS :=
  Nat.mod_lt _ modulus_pos

theorem r_mul_rinv_modEq : R * RINV ≡ 1 [MOD MODULUS] := by
  show R * RINV % MODULUS = 1 % MODULUS
  rw [r_mul_rinv, one_mod_modulus]

theorem fromMont_toMont (v : Nat) (hv : v < MODULUS) :
    fromMont (toMont v) = v := by
  show toMont v * RINV % MODULUS = v
  have h1 : toMont v * RINV ≡ v * R * RINV [MOD MODULUS] :=
    ((Nat.mod_modEq (v * R) MODULUS).mul_right RINV)
  have h2 : v * R * RINV ≡ v * 1 [MOD MODULUS] := by
    rw [Nat.mul_assoc]
    exact r_mul_rinv_modEq.mul_left v
  have h3 : toMont v * RINV % MODULUS = v * 1 % MODULUS := h1.trans h2
  rw [h3, Nat.mul_one, Nat.mod_eq_of_lt hv]

theorem montMul_toMont (a s : Nat) :
    montMul a (toMont s) = a * s % MODULUS := by
  show a * (s * R % MODULUS) * RINV % MODULUS = a * s % MODULUS
  have h1 : a * (s * R % MODULUS) * RINV ≡ a * (s * R) * RINV
      [MOD MODULUS] := ((Nat.mod_modEq (s * R) MODULUS).mul_left a).mul_right RINV
  have h2 : a * (s * R) * RINV ≡ a * s * 1 [MOD MODULUS] := by
    have : a * (s * R) * RINV = a * s * (R * RINV) := by ring
    rw [this]
    exact r_mul_rinv_modEq.mul_left (a * s)
  have h3 : a * (s * R % MODULUS) * RINV % MODULUS = a * s * 1 % MODULUS :=
    h1.trans h2
  rw [h3, Nat.mul_one]

theorem montMul_toMont_toMont (a s : Nat) :
    montMul (toMont a) (toMont s) = a * s * R % MODULUS := by
  rw [montMul_toMont]
  show a * R % MODULUS * s % MODULUS = a * s * R % MODULUS
  have h1 : a * R % MODULUS * s % MODULUS = a * R * s % MODULUS :=
    (Nat.mod_modEq (a * R) MODULUS).mul_right s
  rw [h1]
  ring_nf

/-- Exact division by Montgomery multiplication with a precomputed inverse:
when `s` divides `d`, the quotient is below the modulus, and `sinv` holds the
Montgomery form of `s⁻¹`, the composed operation recovers `d / s` exactly. -/
theorem montMul_exact (s sinv d : Nat) (hs : 0 < s)
    (hinv : s * sinv % MODULUS = R) (hdvd : s ∣ d)
    (hq : d / s < MODULUS) : montMul d sinv = d / s := by
  obtain ⟨t, rfl⟩ := hdvd
  rw [Nat.mul_div_cancel_left t hs] at hq ⊢
  show s * t * sinv * RINV % MODULUS = t
  have h1 : s * t * sinv * RINV = t * (s * sinv * RINV) := by ring
  have h2 : t * (s * sinv * RINV) ≡ t * (R * RINV) [MOD MODULUS] := by
    have hm : s * sinv ≡ R [MOD MODULUS] := by
      show s * sinv % MODULUS = R % MODULUS
      rw [hinv, Nat.mod_eq_of_lt (by decide : R < MODULUS)]
    exact (hm.mul_right RINV).mul_left t
  have h3 : t * (R * RINV) ≡ t * 1 [MOD MODULUS] :=
    r_mul_rinv_modEq.mul_left t
  have h4 : t * (s * sinv * RINV) % MODULUS = t * 1 % MODULUS := h2.trans h3
  rw [h1, h4, Nat.mul_one, Nat.mod_eq_of_lt hq]

theorem decompPairs_good : ∀ p ∈ decompPairs, GoodPair p := by decide

theorem decompPairs_fst : decompPairs.map Prod.fst = DECOMPOSITION_S_I := by
  decide

theorem modulus_le_prod : MODULUS ≤ DECOMPOSITION_S_I.prod := by decide

theorem decompPairs_length : decompPairs.length = 27 := by decide

/-- One division step of the digit loop is exact: the Montgomery
multiplication by the precomputed inverse computes the integer quotient. -/
theorem decompose_step (p : Nat × Nat) (r : Nat) (hg : GoodPair p)
    (hr : r < MODULUS) : montMul (r - r % p.1) p.2 = r / p.1 := by
  have hd : r - r % p.1 = p.1 * (r / p.1) := by
    have := Nat.mod_add_div r p.1
    omega
  have hdiv : (r - r % p.1) / p.1 = r / p.1 := by
    rw [hd, Nat.mul_div_cancel_left _ hg.1]
  rw [montMul_exact p.1 p.2 (r - r % p.1) hg.1 hg.2 ⟨r / p.1, hd⟩
    (by rw [hdiv]; exact Nat.lt_of_le_of_lt (Nat.div_le_self r p.1) hr),
    hdiv]

theorem decomposeDigits_length (ps : List (Nat × Nat)) (r : Nat) :
    (decomposeDigits ps r).length = ps.length := by
  induction ps generalizing r with
  | nil => simp [decomposeDigits]
  | cons p rest ih =>
    cases rest with
    | nil => simp [decomposeDigits]
    | cons p2 rest2 => simp [decomposeDigits, ih]

theorem recombine_cons (s : Nat) (ss : List Nat) (d : Nat) (ds : List Nat)
    (h : ds ≠ []) : recombine (s :: ss) (d :: ds) = d + s * recombine ss ds := by
  cases ds with
  | nil => cases h rfl
  | cons d2 ds2 => rfl

/-- Round trip of the pure digit loop: the mixed-radix Horner recombination
of the digits recovers the input exactly (as a natural number). -/
theorem decomp_recombine (ps : List (Nat × Nat)) (r : Nat)
    (hr : r < MODULUS) (hg : ∀ p ∈ ps, GoodPair p) (hne : ps ≠ []) :
    recombine (ps.map Prod.fst) (decomposeDigits ps r) = r := by
  induction ps generalizing r with
  | nil => cases hne rfl
  | cons p rest ih =>
    cases rest with
    | nil => simp [decomposeDigits, recombine]
    | cons p2 rest2 =>
      have hgp : GoodPair p := hg p (by simp)
      show recombine (p.1 :: (p2 :: rest2).map Prod.fst)
        ((r % p.1) :: decomposeDigits (p2 :: rest2)
          (montMul (r - r % p.1) p.2)) = r
      rw [decompose_step p r hgp hr]
      have hlen : decomposeDigits (p2 :: rest2) (r / p.1) ≠ [] := by
        intro h
        have := decomposeDigits_length (p2 :: rest2) (r / p.1)
        rw [h] at this
        simp at this
      rw [recombine_cons _ _ _ _ hlen,
        ih (r / p.1) (Nat.lt_of_le_of_lt (Nat.div_le_self r p.1) hr)
          (fun q hq => hg q (List.mem_cons_of_mem p hq)) (by simp)]
      exact Nat.mod_add_div r p.1

/-- Digit bound of the pure digit loop: whenever the input is below the
product of all radices, every digit is strictly below its radix (out of
range, `getD` compares the defaults `0 < 1`). -/
theorem decomposeDigits_bound (ps : List (Nat × Nat)) (r : Nat)
    (hr : r < MODULUS) (hg : ∀ p ∈ ps, GoodPair p)
    (hprod : r < (ps.map Prod.fst).prod) (k : Nat) :
    (decomposeDigits ps r).getD k 0 < (ps.map Prod.fst).getD k 1 := by
  induction ps generalizing r k with
  | nil => simp [decomposeDigits]
  | cons p rest ih =>
    cases rest with
    | nil =>
      cases k with
      | zero =>
        simpa [decomposeDigits] using (by simpa using hprod : r < p.1)
      | succ k => simp [decomposeDigits]
    | cons p2 rest2 =>
      have hgp : GoodPair p := hg p (by simp)
      cases k with
      | zero =>
        simpa [decomposeDigits] using Nat.mod_lt r hgp.1
      | succ k =>
        show (decomposeDigits (p2 :: rest2)
          (montMul (r - r % p.1) p.2)).getD k 0 <
          ((p2 :: rest2).map Prod.fst).getD k 1
        rw [decompose_step p r hgp hr]
        refine ih (r / p.1)
          (Nat.lt_of_le_of_lt (Nat.div_le_self r p.1) hr)
          (fun q hq => hg q (List.mem_cons_of_mem p hq)) ?_ k
        rw [Nat.div_lt_iff_lt_mul hgp.1]
        calc r < (((p :: p2 :: rest2).map Prod.fst)).prod := hprod
          _ = ((p2 :: rest2).map Prod.fst).prod * p.1 := by
            simp [Nat.mul_comm]

/-! Composer bookkeeping: every operation only appends to the witness
vector and to the gate list, so indices and stored values are stable. -/

theorem getD_append_left (l l' : List Nat) (i : Nat) (h : i < l.length) :
    (l ++ l').getD i 0 = l.getD i 0 := List.getD_append l l' 0 i h

theorem getD_append_self (l : List Nat) (x : Nat) (rest : List Nat) :
    (l ++ x :: rest).getD l.length 0 = x := by
  rw [List.getD_append_right l (x :: rest) 0 l.length (Nat.le_refl _)]
  simp

theorem extends_refl (c : Composer) : Extends c c :=
  ⟨⟨[], by simp⟩, rfl, ⟨[], by simp⟩⟩

theorem Extends.trans {a b c : Composer} (h1 : Extends a b)
    (h2 : Extends b c) : Extends a c := by
  obtain ⟨⟨t1, hv1⟩, hz1, ⟨g1, hg1⟩⟩ := h1
  obtain ⟨⟨t2, hv2⟩, hz2, ⟨g2, hg2⟩⟩ := h2
  exact ⟨⟨t1 ++ t2, by rw [hv2, hv1, List.append_assoc]⟩, hz2.trans hz1,
    ⟨g1 ++ g2, by rw [hg2, hg1, List.append_assoc]⟩⟩

theorem Extends.getD_eq {c c' : Composer} (h : Extends c c') {i : Nat}
    (hi : i < c.vars.length) : c'.vars.getD i 0 = c.vars.getD i 0 := by
  obtain ⟨⟨t, hv⟩, _, _⟩ := h
  rw [hv, getD_append_left _ _ _ hi]

theorem Extends.length_le {c c' : Composer} (h : Extends c c') :
    c.vars.length ≤ c'.vars.length := by
  obtain ⟨⟨t, hv⟩, _, _⟩ := h
  rw [hv]
  simp

theorem Extends.gates_mem {c c' : Composer} (h : Extends c c') {g : Gate}
    (hg : g ∈ c.gates) : g ∈ c'.gates := by
  obtain ⟨_, _, ⟨gs, hgs⟩⟩ := h
  rw [hgs]
  exact List.mem_append_left gs hg

theorem add_input_extends (c : Composer) (l : Nat) :
    Extends c (add_input c l).1 :=
  ⟨⟨[l], rfl⟩, rfl, ⟨[], by simp [add_input]⟩⟩

theorem add_input_val (c : Composer) (l : Nat) :
    (add_input c l).1.vars.getD (add_input c l).2 0 = l :=
  getD_append_self c.vars l []

theorem add_input_fresh (c : Composer) (l : Nat) :
    (add_input c l).2 = c.vars.length := rfl

theorem add_input_length (c : Composer) (l : Nat) :
    (add_input c l).1.vars.length = c.vars.length + 1 := by
  simp [add_input]

theorem big_add_extends (c : Composer) (w1 a w2 b : Nat) :
    Extends c (big_add c w1 a w2 b).1 :=
  ⟨⟨[_], rfl⟩, rfl, ⟨[_], rfl⟩⟩

theorem big_add_val (c : Composer) (w1 a w2 b : Nat) :
    (big_add c w1 a w2 b).1.vars.getD (big_add c w1 a w2 b).2 0 =
      (w1 * c.vars.getD a 0 + w2 * c.vars.getD b 0) % MODULUS :=
  getD_append_self c.vars _ []

theorem big_mul_extends (c : Composer) (a b d : Nat) :
    Extends c (big_mul c a b d).1 :=
  ⟨⟨[_], rfl⟩, rfl, ⟨[_], rfl⟩⟩

theorem big_mul_val (c : Composer) (a b d : Nat) :
    (big_mul c a b d).1.vars.getD (big_mul c a b d).2 0 =
      (montMul (c.vars.getD a 0) (c.vars.getD b 0) + c.vars.getD d 0)
        % MODULUS :=
  getD_append_self c.vars _ []

theorem constrain_extends (c : Composer) (v k : Nat) :
    Extends c (constrain_to_constant c v k) :=
  ⟨⟨[], by simp [constrain_to_constant]⟩, rfl, ⟨[_], rfl⟩⟩

/-- Full description of the digit loop's effect on the composer: gates are
untouched, `2 · |ps|` witnesses are appended, the raw-digit witnesses sit at
the even offsets and store the pure digits, and the Montgomery twins sit one
index above each, storing the digits' Montgomery forms. -/
theorem decompose_loop_spec (ps : List (Nat × Nat)) (c : Composer)
    (r : Nat) :
    Extends c (decompose_loop c ps r).1 ∧
    (decompose_loop c ps r).1.vars.length = c.vars.length + 2 * ps.length ∧
    (decompose_loop c ps r).1.gates = c.gates ∧
    (decompose_loop c ps r).2.1.length = ps.length ∧
    (∀ j, j < ps.length →
      (decompose_loop c ps r).2.1.getD j 0 = c.vars.length + 2 * j) ∧
    (∀ j, j < ps.length →
      (decompose_loop c ps r).2.2.getD j 0 = c.vars.length + 2 * j + 1) ∧
    (decompose_loop c ps r).2.1.map
      (fun i => (decompose_loop c ps r).1.vars.getD i 0)
      = decomposeDigits ps r ∧
    (decompose_loop c ps r).2.2.map
      (fun i => (decompose_loop c ps r).1.vars.getD i 0)
      = (decomposeDigits ps r).map toMont := by
  induction ps generalizing c r with
  | nil =>
    refine ⟨extends_refl c, by simp [decompose_loop], rfl, rfl,
      ?_, ?_, rfl, rfl⟩ <;>
    · intro j hj
      simp at hj
  | cons p rest ih =>
    cases rest with
    | nil =>
      have e1 : (decompose_loop c [p] r).1
          = ⟨c.vars ++ [r] ++ [toMont r], c.gates, c.zero_var⟩ := rfl
      have e2 : (decompose_loop c [p] r).2.1 = [c.vars.length] := rfl
      have e3 : (decompose_loop c [p] r).2.2 = [(c.vars ++ [r]).length] := rfl
      refine ⟨⟨⟨[r] ++ [toMont r], by rw [e1]; simp⟩, by rw [e1], ⟨[],
          by rw [e1]; simp⟩⟩, by rw [e1]; simp, by rw [e1], by rw [e2]; rfl,
        ?_, ?_, ?_, ?_⟩
      · intro j hj
        cases j with
        | zero => rw [e2]; rfl
        | succ j => exact absurd hj (by simp)
      · intro j hj
        cases j with
        | zero => rw [e3]; simp
        | succ j => exact absurd hj (by simp)
      · rw [e2, e1, List.map_cons, List.map_nil]
        show [(c.vars ++ [r] ++ [toMont r]).getD c.vars.length 0] = [r]
        rw [getD_append_left _ _ _ (by simp), getD_append_self c.vars r []]
      · rw [e3, e1, List.map_cons, List.map_nil]
        show [(c.vars ++ [r] ++ [toMont r]).getD (c.vars ++ [r]).length 0]
          = [toMont r]
        rw [getD_append_self (c.vars ++ [r]) (toMont r) []]
    | cons p2 rest2 =>
      have e1 : (decompose_loop c (p :: p2 :: rest2) r).1
          = (decompose_loop
              ⟨c.vars ++ [r % p.1] ++ [toMont (r % p.1)], c.gates,
                c.zero_var⟩
              (p2 :: rest2) (montMul (r - r % p.1) p.2)).1 := rfl
      have e2 : (decompose_loop c (p :: p2 :: rest2) r).2.1
          = c.vars.length :: (decompose_loop
              ⟨c.vars ++ [r % p.1] ++ [toMont (r % p.1)], c.gates,
                c.zero_var⟩
              (p2 :: rest2) (montMul (r - r % p.1) p.2)).2.1 := rfl
      have e3 : (decompose_loop c (p :: p2 :: rest2) r).2.2
          = (c.vars ++ [r % p.1]).length :: (decompose_loop
              ⟨c.vars ++ [r % p.1] ++ [toMont (r % p.1)], c.gates,
                c.zero_var⟩
              (p2 :: rest2) (montMul (r - r % p.1) p.2)).2.2 := rfl
      have edig : decomposeDigits (p :: p2 :: rest2) r
          = (r % p.1) :: decomposeDigits (p2 :: rest2)
              (montMul (r - r % p.1) p.2) := rfl
      obtain ⟨ihext, ihlen, ihgates, ihnlen, ihidx, ihmidx, ihraw, ihmont⟩ :=
        ih ⟨c.vars ++ [r % p.1] ++ [toMont (r % p.1)], c.gates, c.zero_var⟩
          (montMul (r - r % p.1) p.2)
      have hstep : Extends c
          ⟨c.vars ++ [r % p.1] ++ [toMont (r % p.1)], c.gates,
            c.zero_var⟩ :=
        ⟨⟨[r % p.1] ++ [toMont (r % p.1)], by simp⟩, rfl, ⟨[], by simp⟩⟩
      refine ⟨by rw [e1]; exact hstep.trans ihext, ?_, by rw [e1, ihgates],
        by rw [e2]; simpa using ihnlen, ?_, ?_, ?_, ?_⟩
      · rw [e1, ihlen]
        simp
        ring
      · intro j hj
        cases j with
        | zero => rw [e2]; rfl
        | succ j =>
          rw [e2]
          show (decompose_loop _ (p2 :: rest2) _).2.1.getD j 0
            = c.vars.length + 2 * (j + 1)
          rw [ihidx j (by simpa using hj)]
          simp
          ring
      · intro j hj
        cases j with
        | zero => rw [e3]; simp
        | succ j =>
          rw [e3]
          show (decompose_loop _ (p2 :: rest2) _).2.2.getD j 0
            = c.vars.length + 2 * (j + 1) + 1
          rw [ihmidx j (by simpa using hj)]
          simp
          ring
      · rw [e2, e1, List.map_cons, edig, ihraw]
        refine congrArg (fun z => z :: _) ?_
        rw [ihext.getD_eq (by simp), getD_append_left _ _ _ (by simp),
          getD_append_self c.vars (r % p.1) []]
      · rw [e3, e1, List.map_cons, edig, List.map_cons, ihmont]
        refine congrArg (fun z => z :: _) ?_
        rw [ihext.getD_eq (by simp),
          getD_append_self (c.vars ++ [r % p.1]) (toMont (r % p.1)) []]

/-- One unfolding step of the Horner fold loop, with the successor composer
written out explicitly. -/
theorem horner_fold_cons (c : Composer) (acc : Nat) (p : Nat × Nat)
    (rest : List (Nat × Nat)) :
    horner_fold c acc (p :: rest) =
      horner_fold
        ⟨c.vars ++ [toMont p.1] ++
          [(montMul ((c.vars ++ [toMont p.1]).getD acc 0)
             ((c.vars ++ [toMont p.1]).getD c.vars.length 0) +
            (c.vars ++ [toMont p.1]).getD p.2 0) % MODULUS],
         c.gates ++ [Gate.bigMul acc c.vars.length p.2
           (c.vars ++ [toMont p.1]).length],
         c.zero_var⟩
        (c.vars ++ [toMont p.1]).length rest := rfl

/-- Value and extension behaviour of the Horner fold loop: the returned
accumulator witness stores the left fold of `foldStep` over the moduli
paired with the digit witnesses' stored values. -/
theorem horner_fold_spec (qs : List (Nat × Nat)) (c : Composer) (acc : Nat)
    (hacc : acc < c.vars.length) (hqs : ∀ p ∈ qs, p.2 < c.vars.length) :
    Extends c (horner_fold c acc qs).1 ∧
    (horner_fold c acc qs).2 < (horner_fold c acc qs).1.vars.length ∧
    (horner_fold c acc qs).1.vars.getD (horner_fold c acc qs).2 0 =
      List.foldl foldStep (c.vars.getD acc 0)
        (qs.map (fun p => (p.1, c.vars.getD p.2 0))) := by
  induction qs generalizing c acc with
  | nil => exact ⟨extends_refl c, hacc, rfl⟩
  | cons p rest ih =>
    rw [horner_fold_cons]
    have hg1 : (c.vars ++ [toMont p.1]).getD acc 0 = c.vars.getD acc 0 :=
      getD_append_left _ _ _ hacc
    have hg2 : (c.vars ++ [toMont p.1]).getD c.vars.length 0 = toMont p.1 :=
      getD_append_self c.vars _ []
    have hg3 : (c.vars ++ [toMont p.1]).getD p.2 0 = c.vars.getD p.2 0 :=
      getD_append_left _ _ _ (hqs p (by simp))
    obtain ⟨ihext, ihlt, ihval⟩ := ih
      ⟨c.vars ++ [toMont p.1] ++
        [(montMul ((c.vars ++ [toMont p.1]).getD acc 0)
           ((c.vars ++ [toMont p.1]).getD c.vars.length 0) +
          (c.vars ++ [toMont p.1]).getD p.2 0) % MODULUS],
       c.gates ++ [Gate.bigMul acc c.vars.length p.2
         (c.vars ++ [toMont p.1]).length],
       c.zero_var⟩
      (c.vars ++ [toMont p.1]).length (by simp)
      (fun q hq => by
        have := hqs q (List.mem_cons_of_mem p hq)
        simp
        omega)
    have hstep : Extends c
        ⟨c.vars ++ [toMont p.1] ++
          [(montMul ((c.vars ++ [toMont p.1]).getD acc 0)
             ((c.vars ++ [toMont p.1]).getD c.vars.length 0) +
            (c.vars ++ [toMont p.1]).getD p.2 0) % MODULUS],
         c.gates ++ [Gate.bigMul acc c.vars.length p.2
           (c.vars ++ [toMont p.1]).length],
         c.zero_var⟩ :=
      ⟨⟨[toMont p.1] ++
          [(montMul ((c.vars ++ [toMont p.1]).getD acc 0)
             ((c.vars ++ [toMont p.1]).getD c.vars.length 0) +
            (c.vars ++ [toMont p.1]).getD p.2 0) % MODULUS], by simp⟩,
        rfl, ⟨_, rfl⟩⟩
    refine ⟨hstep.trans ihext, ihlt, ?_⟩
    rw [ihval]
    have hseed : (⟨c.vars ++ [toMont p.1] ++
          [(montMul ((c.vars ++ [toMont p.1]).getD acc 0)
             ((c.vars ++ [toMont p.1]).getD c.vars.length 0) +
            (c.vars ++ [toMont p.1]).getD p.2 0) % MODULUS],
         c.gates ++ [Gate.bigMul acc c.vars.length p.2
           (c.vars ++ [toMont p.1]).length],
         c.zero_var⟩ : Composer).vars.getD (c.vars ++ [toMont p.1]).length 0
        = foldStep (c.vars.getD acc 0) (p.1, c.vars.getD p.2 0) := by
      rw [show (⟨c.vars ++ [toMont p.1] ++
          [(montMul ((c.vars ++ [toMont p.1]).getD acc 0)
             ((c.vars ++ [toMont p.1]).getD c.vars.length 0) +
            (c.vars ++ [toMont p.1]).getD p.2 0) % MODULUS],
         c.gates ++ [Gate.bigMul acc c.vars.length p.2
           (c.vars ++ [toMont p.1]).length],
         c.zero_var⟩ : Composer).vars = (c.vars ++ [toMont p.1]) ++
          [(montMul ((c.vars ++ [toMont p.1]).getD acc 0)
             ((c.vars ++ [toMont p.1]).getD c.vars.length 0) +
            (c.vars ++ [toMont p.1]).getD p.2 0) % MODULUS] from rfl,
        getD_append_self (c.vars ++ [toMont p.1]) _ [], hg1, hg2, hg3]
      rfl
    rw [hseed, List.map_cons, List.foldl_cons]
    refine congrArg (List.foldl foldStep _) (List.map_congr_left ?_)
    intro q hq
    have hq' : q.2 < (c.vars ++ [toMont p.1]).length := by
      have := hqs q (List.mem_cons_of_mem p hq)
      simp
      omega
    refine congrArg (fun z => (q.1, z)) ?_
    rw [show (⟨c.vars ++ [toMont p.1] ++
          [(montMul ((c.vars ++ [toMont p.1]).getD acc 0)
             ((c.vars ++ [toMont p.1]).getD c.vars.length 0) +
            (c.vars ++ [toMont p.1]).getD p.2 0) % MODULUS],
         c.gates ++ [Gate.bigMul acc c.vars.length p.2
           (c.vars ++ [toMont p.1]).length],
         c.zero_var⟩ : Composer).vars = (c.vars ++ [toMont p.1]) ++
          [(montMul ((c.vars ++ [toMont p.1]).getD acc 0)
             ((c.vars ++ [toMont p.1]).getD c.vars.length 0) +
            (c.vars ++ [toMont p.1]).getD p.2 0) % MODULUS] from rfl,
      getD_append_left _ _ _ hq',
      getD_append_left _ _ _ (hqs q (List.mem_cons_of_mem p hq))]

/-- The Horner fold loop appends only multiplication gates. -/
theorem horner_fold_gates (qs : List (Nat × Nat)) (c : Composer)
    (acc : Nat) :
    ∃ gs, (horner_fold c acc qs).1.gates = c.gates ++ gs ∧
      ∀ g ∈ gs, ∃ a b d o, g = Gate.bigMul a b d o := by
  induction qs generalizing c acc with
  | nil => exact ⟨[], (List.append_nil c.gates).symm, by simp⟩
  | cons p rest ih =>
    rw [horner_fold_cons]
    obtain ⟨gs, hgs, hshape⟩ := ih
      ⟨c.vars ++ [toMont p.1] ++
        [(montMul ((c.vars ++ [toMont p.1]).getD acc 0)
           ((c.vars ++ [toMont p.1]).getD c.vars.length 0) +
          (c.vars ++ [toMont p.1]).getD p.2 0) % MODULUS],
       c.gates ++ [Gate.bigMul acc c.vars.length p.2
         (c.vars ++ [toMont p.1]).length],
       c.zero_var⟩
      (c.vars ++ [toMont p.1]).length
    refine ⟨Gate.bigMul acc c.vars.length p.2
      (c.vars ++ [toMont p.1]).length :: gs, ?_, ?_⟩
    · rw [hgs]
      simp
    · intro g hg
      rcases List.mem_cons.1 hg with h | h
      · exact ⟨_, _, _, _, h⟩
      · exact hshape g h

/-- Unless the pair list is empty, the Horner fold's returned accumulator
is the most recently allocated witness. -/
theorem horner_fold_last (qs : List (Nat × Nat)) (c : Composer)
    (acc : Nat) :
    (qs = [] ∧ horner_fold c acc qs = (c, acc)) ∨
    (horner_fold c acc qs).2 + 1 = (horner_fold c acc qs).1.vars.length := by
  induction qs generalizing c acc with
  | nil => exact Or.inl ⟨rfl, rfl⟩
  | cons p rest ih =>
    rw [horner_fold_cons]
    rcases ih
      ⟨c.vars ++ [toMont p.1] ++
        [(montMul ((c.vars ++ [toMont p.1]).getD acc 0)
           ((c.vars ++ [toMont p.1]).getD c.vars.length 0) +
          (c.vars ++ [toMont p.1]).getD p.2 0) % MODULUS],
       c.gates ++ [Gate.bigMul acc c.vars.length p.2
         (c.vars ++ [toMont p.1]).length],
       c.zero_var⟩
      (c.vars ++ [toMont p.1]).length with ⟨hrest, heq⟩ | h
    · subst hrest
      rw [heq]
      right
      simp
    · exact Or.inr h

/-- Every equality-to-constant gate present after a Horner fold constrains
a witness strictly older than the returned accumulator. -/
theorem horner_fold_constrain (qs : List (Nat × Nat)) (c : Composer)
    (acc : Nat) (hacc : acc < c.vars.length)
    (hc : ∀ v k, Gate.constrain v k ∈ c.gates → v < acc) :
    ∀ v k, Gate.constrain v k ∈ (horner_fold c acc qs).1.gates →
      v < (horner_fold c acc qs).2 := by
  induction qs generalizing c acc with
  | nil => exact hc
  | cons p rest ih =>
    rw [horner_fold_cons]
    refine ih _ _ (by simp) ?_
    intro v k hv
    rcases List.mem_append.1 hv with h | h
    · have h1 := hc v k h
      have h2 : c.vars.length ≤ (c.vars ++ [toMont p.1]).length := by simp
      omega
    · simp at h

/-- One unfolding step of the substitution loop. -/
theorem sbox_all_cons (c : Composer) (i : Nat) (is : List Nat) :
    sbox_all c (i :: is) =
      ((sbox_all ⟨c.vars ++ [toMont (sboxFn (c.vars.getD i 0))], c.gates,
          c.zero_var⟩ is).1,
       c.vars.length :: (sbox_all
          ⟨c.vars ++ [toMont (sboxFn (c.vars.getD i 0))], c.gates,
            c.zero_var⟩ is).2) := rfl

/-- The substitution loop appends one witness per input handle, touches no
gates, and each output handle stores the Montgomery form of the
substitution of its input handle's stored value. -/
theorem sbox_all_spec (idxs : List Nat) (c : Composer)
    (hb : ∀ i ∈ idxs, i < c.vars.length) :
    Extends c (sbox_all c idxs).1 ∧
    (sbox_all c idxs).1.gates = c.gates ∧
    (sbox_all c idxs).2.length = idxs.length ∧
    (∀ o ∈ (sbox_all c idxs).2, o < (sbox_all c idxs).1.vars.length) ∧
    (sbox_all c idxs).2.map (fun i => (sbox_all c idxs).1.vars.getD i 0)
      = idxs.map (fun i => toMont (sboxFn (c.vars.getD i 0))) := by
  induction idxs generalizing c with
  | nil =>
    exact ⟨extends_refl c, rfl, rfl,
      fun o ho => absurd ho (by simp [sbox_all]), rfl⟩
  | cons i is ih =>
    rw [sbox_all_cons]
    obtain ⟨ihext, ihgates, ihlen, ihbound, ihmap⟩ := ih
      ⟨c.vars ++ [toMont (sboxFn (c.vars.getD i 0))], c.gates, c.zero_var⟩
      (fun j hj => by
        have := hb j (List.mem_cons_of_mem i hj)
        simp
        omega)
    have hstep : Extends c
        ⟨c.vars ++ [toMont (sboxFn (c.vars.getD i 0))], c.gates,
          c.zero_var⟩ :=
      ⟨⟨[toMont (sboxFn (c.vars.getD i 0))], rfl⟩, rfl,
        ⟨[], (List.append_nil c.gates).symm⟩⟩
    refine ⟨hstep.trans ihext, ihgates, by simpa using ihlen, ?_, ?_⟩
    · intro o ho
      rcases List.mem_cons.1 ho with h | h
      · subst h
        have h1 : c.vars.length <
            (⟨c.vars ++ [toMont (sboxFn (c.vars.getD i 0))], c.gates,
              c.zero_var⟩ : Composer).vars.length := by simp
        exact lt_of_lt_of_le h1 ihext.length_le
      · exact ihbound o h
    · rw [List.map_cons, List.map_cons, ihmap]
      refine congrArg₂ (fun z zs => z :: zs) ?_ (List.map_congr_left ?_)
      · rw [ihext.getD_eq (by simp)]
        exact getD_append_self c.vars _ []
      · intro j hj
        refine congrArg (fun z => toMont (sboxFn z)) ?_
        exact getD_append_left _ _ _ (hb j (List.mem_cons_of_mem i hj))

/-! Pure facts about the Horner fold value. -/

theorem foldStep_eq (a : Nat) (p : Nat × Nat) :
    foldStep a p = (a * p.1 + p.2) % MODULUS := by
  show (montMul a (toMont p.1) + p.2) % MODULUS = _
  rw [montMul_toMont]
  exact ((Nat.mod_modEq (a * p.1) MODULUS).add_right p.2 :
    (a * p.1 % MODULUS + p.2) % MODULUS = (a * p.1 + p.2) % MODULUS)

theorem foldl_foldStep (L : List (Nat × Nat)) (a : Nat) :
    List.foldl foldStep a L =
      List.foldl (fun x p => (x * p.1 + p.2) % MODULUS) a L := by
  induction L generalizing a with
  | nil => rfl
  | cons p rest ih => rw [List.foldl_cons, List.foldl_cons, foldStep_eq, ih]

theorem foldStep_mont (a s t : Nat) :
    foldStep (toMont a) (s, toMont t) = toMont ((a * s + t) % MODULUS) := by
  show (montMul (toMont a) (toMont s) + toMont t) % MODULUS = _
  rw [montMul_toMont_toMont]
  have h1 : a * s * R % MODULUS + toMont t ≡ (a * s + t) * R
      [MOD MODULUS] := by
    have h2 : a * s * R % MODULUS + toMont t
        ≡ a * s * R + t * R [MOD MODULUS] :=
      Nat.ModEq.add (Nat.mod_modEq (a * s * R) MODULUS)
        (Nat.mod_modEq (t * R) MODULUS)
    have h3 : a * s * R + t * R = (a * s + t) * R := by ring
    rw [h3] at h2
    exact h2
  have h4 : (a * s + t) * R ≡ (a * s + t) % MODULUS * R [MOD MODULUS] :=
    (Nat.mod_modEq (a * s + t) MODULUS).symm.mul_right R
  exact (h1.trans h4 :
    (a * s * R % MODULUS + toMont t) % MODULUS
      = (a * s + t) % MODULUS * R % MODULUS)

theorem foldl_mont (L : List (Nat × Nat)) (a : Nat) :
    List.foldl foldStep (toMont a) (L.map (fun p => (p.1, toMont p.2)))
      = toMont (List.foldl (fun x p => (x * p.1 + p.2) % MODULUS) a L) := by
  induction L generalizing a with
  | nil => rfl
  | cons p rest ih =>
    rw [List.map_cons, List.foldl_cons, List.foldl_cons, foldStep_mont, ih]

theorem foldr_recombine (ss ds : List Nat) (z a : Nat)
    (hlen : ss.length = ds.length) (ha : a < MODULUS) :
    List.foldr (fun p x => (x * p.1 + p.2) % MODULUS) a (ss.zip ds)
      = recombine (ss ++ [z]) (ds ++ [a]) % MODULUS := by
  induction ss generalizing ds with
  | nil =>
    cases ds with
    | nil => simp [recombine, Nat.mod_eq_of_lt ha]
    | cons d ds2 => simp at hlen
  | cons s ss2 ih =>
    cases ds with
    | nil => simp at hlen
    | cons d ds2 =>
      rw [List.zip_cons_cons, List.foldr_cons,
        ih ds2 (by simpa using hlen), List.cons_append, List.cons_append,
        recombine_cons _ _ _ _ (by simp)]
      have h1 : recombine (ss2 ++ [z]) (ds2 ++ [a]) % MODULUS * s + d
          ≡ d + s * recombine (ss2 ++ [z]) (ds2 ++ [a]) [MOD MODULUS] := by
        have h2 : recombine (ss2 ++ [z]) (ds2 ++ [a]) % MODULUS * s + d
            ≡ recombine (ss2 ++ [z]) (ds2 ++ [a]) * s + d [MOD MODULUS] :=
          ((Nat.mod_modEq (recombine (ss2 ++ [z]) (ds2 ++ [a]))
            MODULUS).mul_right s).add_right d
        have h3 : recombine (ss2 ++ [z]) (ds2 ++ [a]) * s + d
            = d + s * recombine (ss2 ++ [z]) (ds2 ++ [a]) := by ring
        rw [h3] at h2
        exact h2
      exact (h1 :
        (recombine (ss2 ++ [z]) (ds2 ++ [a]) % MODULUS * s + d) % MODULUS
          = (d + s * recombine (ss2 ++ [z]) (ds2 ++ [a])) % MODULUS)

theorem map_getD (l : List Nat) (f : Nat → Nat) (j : Nat)
    (h : j < l.length) : (l.map f).getD j 0 = f (l.getD j 0) := by
  rw [List.getD_eq_getElem l 0 h,
    List.getD_eq_getElem (l.map f) 0 (by simpa using h)]
  exact List.getElem_map f

theorem zip_map_snd (A : List Nat) (B : List Nat) (f : Nat → Nat) :
    (A.zip B).map (fun p => (p.1, f p.2)) = A.zip (B.map f) := by
  induction A generalizing B with
  | nil => simp
  | cons a A2 ih =>
    cases B with
    | nil => simp
    | cons b B2 => simp [ih]

theorem zip_concat (A B : List Nat) (x y : Nat) (h : A.length = B.length) :
    (A ++ [x]).zip (B ++ [y]) = A.zip B ++ [(x, y)] := by
  induction A generalizing B with
  | nil =>
    cases B with
    | nil => simp
    | cons b B2 => simp at h
  | cons a A2 ih =>
    cases B with
    | nil => simp at h
    | cons b B2 => simp [ih B2 (by simpa using h)]

theorem take_concat_getD (l : List Nat) (i : Nat) (h : i < l.length) :
    l.take i ++ [l.getD i 0] = l.take (i + 1) := by
  rw [List.getD_eq_getElem l 0 h, ← List.concat_eq_append]
  exact List.take_concat_get l i h

theorem big_add_length (c : Composer) (w1 a w2 b : Nat) :
    (big_add c w1 a w2 b).1.vars.length = c.vars.length + 1 := by
  simp [big_add]

theorem big_mul_length (c : Composer) (a b d : Nat) :
    (big_mul c a b d).1.vars.length = c.vars.length + 1 := by
  simp [big_mul]

theorem big_add_gates (c : Composer) (w1 a w2 b : Nat) :
    (big_add c w1 a w2 b).1.gates
      = c.gates ++ [Gate.bigAdd w1 a w2 b c.vars.length] := rfl

theorem big_mul_gates (c : Composer) (a b d : Nat) :
    (big_mul c a b d).1.gates
      = c.gates ++ [Gate.bigMul a b d c.vars.length] := rfl

theorem big_mul_out (c : Composer) (a b d : Nat) :
    (big_mul c a b d).2 = c.vars.length := rfl

theorem add_input_gates (c : Composer) (l : Nat) :
    (add_input c l).1.gates = c.gates := rfl

theorem getD_mem (l : List Nat) (j : Nat) (h : j < l.length) :
    l.getD j 0 ∈ l := by
  rw [List.getD_eq_getElem l 0 h]
  exact List.getElem_mem h

/-- Everything `decomp_check` does, given the digit loop's outcome: it
extends the composer, appends only addition, multiplication and the final
equality gate (never a range gate), seeds the fold from the raw digit
witnesses 26 and 25 against a fresh Montgomery-form modulus witness, and
its accumulator — the last allocated witness — stores exactly the reduced
input, which the final gate pins to that same constant. -/
theorem decomp_check_spec (c1 : Composer) (ns ms : List Nat) (r : Nat)
    (hr : r < MODULUS) (hnslen : ns.length = 27)
    (hnb : ∀ i ∈ ns, i < c1.vars.length)
    (hraw : ns.map (fun i => c1.vars.getD i 0)
      = decomposeDigits decompPairs r) :
    Extends c1 (decomp_check c1 ns ms DECOMPOSITION_S_I r).1 ∧
    (decomp_check c1 ns ms DECOMPOSITION_S_I r).2 + 1
      = (decomp_check c1 ns ms DECOMPOSITION_S_I r).1.vars.length ∧
    (decomp_check c1 ns ms DECOMPOSITION_S_I r).1.vars.getD
      (decomp_check c1 ns ms DECOMPOSITION_S_I r).2 0 = r ∧
    Gate.constrain (decomp_check c1 ns ms DECOMPOSITION_S_I r).2 r
      ∈ (decomp_check c1 ns ms DECOMPOSITION_S_I r).1.gates ∧
    (∃ gs, (decomp_check c1 ns ms DECOMPOSITION_S_I r).1.gates
        = c1.gates ++ gs ∧
      (∀ g ∈ gs, ∀ v b, g ≠ Gate.range v b) ∧
      (∀ v k, Gate.constrain v k ∈ gs →
        v = (decomp_check c1 ns ms DECOMPOSITION_S_I r).2)) ∧
    Gate.bigMul (ns.getD 26 0) c1.vars.length (ns.getD 25 0)
      (c1.vars.length + 4)
      ∈ (decomp_check c1 ns ms DECOMPOSITION_S_I r).1.gates ∧
    (decomp_check c1 ns ms DECOMPOSITION_S_I r).1.vars.getD
      c1.vars.length 0 = toMont 703 := by
  obtain ⟨c2, sik, h1⟩ : ∃ u v,
      add_input c1 (toMont (DECOMPOSITION_S_I.getD 25 0)) = (u, v) :=
    ⟨_, _, rfl⟩
  obtain ⟨c3, sikr, h2⟩ : ∃ u v,
      add_input c2 (DECOMPOSITION_S_I.getD 25 0) = (u, v) := ⟨_, _, rfl⟩
  obtain ⟨c4, diff, h3⟩ : ∃ u v,
      big_add c3 1 sik (MODULUS - 1) (ms.getD 25 0) = (u, v) := ⟨_, _, rfl⟩
  obtain ⟨c5, diffr, h4⟩ : ∃ u v,
      big_add c4 1 sikr (MODULUS - 1) (ns.getD 25 0) = (u, v) := ⟨_, _, rfl⟩
  obtain ⟨c6, acc0, h5⟩ : ∃ u v,
      big_mul c5 (ns.getD 26 0) sik (ns.getD 25 0) = (u, v) := ⟨_, _, rfl⟩
  obtain ⟨c7, acc, h6⟩ : ∃ u v,
      horner_fold c6 acc0 (((DECOMPOSITION_S_I.take 25).zip
        (ns.take 25)).reverse) = (u, v) := ⟨_, _, rfl⟩
  have hres : decomp_check c1 ns ms DECOMPOSITION_S_I r
      = (constrain_to_constant c7 acc r, acc) := by
    simp only [decomp_check]
    rw [h1]
    dsimp only
    rw [h2]
    dsimp only
    rw [h3]
    dsimp only
    rw [h4]
    dsimp only
    rw [h5]
    dsimp only
    rw [h6]
  have f1 : (add_input c1 (toMont (DECOMPOSITION_S_I.getD 25 0))).1 = c2 :=
    congrArg Prod.fst h1
  have f2 : (add_input c2 (DECOMPOSITION_S_I.getD 25 0)).1 = c3 :=
    congrArg Prod.fst h2
  have f3 : (big_add c3 1 sik (MODULUS - 1) (ms.getD 25 0)).1 = c4 :=
    congrArg Prod.fst h3
  have f4 : (big_add c4 1 sikr (MODULUS - 1) (ns.getD 25 0)).1 = c5 :=
    congrArg Prod.fst h4
  have f5 : (big_mul c5 (ns.getD 26 0) sik (ns.getD 25 0)).1 = c6 :=
    congrArg Prod.fst h5
  have f6 : (horner_fold c6 acc0 (((DECOMPOSITION_S_I.take 25).zip
      (ns.take 25)).reverse)).1 = c7 := congrArg Prod.fst h6
  have esik : sik = c1.vars.length := (congrArg Prod.snd h1).symm
  have hv2 : c2.vars = c1.vars ++ [toMont 703] :=
    congrArg (fun z => z.1.vars) h1.symm
  have hl2 : c2.vars.length = c1.vars.length + 1 := by rw [hv2]; simp
  have hg2 : c2.gates = c1.gates := congrArg (fun z => z.1.gates) h1.symm
  have hE1 : Extends c1 c2 :=
    f1 ▸ add_input_extends _ _
  have hval2 : c2.vars.getD c1.vars.length 0 = toMont 703 := by
    rw [hv2]
    exact getD_append_self c1.vars _ []
  have hl3 : c3.vars.length = c2.vars.length + 1 :=
    f2 ▸ add_input_length _ _
  have hg3 : c3.gates = c2.gates := congrArg (fun z => z.1.gates) h2.symm
  have hE2 : Extends c2 c3 :=
    f2 ▸ add_input_extends _ _
  have hl4 : c4.vars.length = c3.vars.length + 1 :=
    f3 ▸ big_add_length _ _ _ _ _
  have hg4 : c4.gates = c3.gates
      ++ [Gate.bigAdd 1 sik (MODULUS - 1) (ms.getD 25 0)
        c3.vars.length] :=
    f3 ▸ big_add_gates _ _ _ _ _
  have hE3 : Extends c3 c4 :=
    f3 ▸ big_add_extends _ _ _ _ _
  have hl5 : c5.vars.length = c4.vars.length + 1 :=
    f4 ▸ big_add_length _ _ _ _ _
  have hg5 : c5.gates = c4.gates
      ++ [Gate.bigAdd 1 sikr (MODULUS - 1) (ns.getD 25 0)
        c4.vars.length] :=
    f4 ▸ big_add_gates _ _ _ _ _
  have hE4 : Extends c4 c5 :=
    f4 ▸ big_add_extends _ _ _ _ _
  have hl6 : c6.vars.length = c5.vars.length + 1 :=
    f5 ▸ big_mul_length _ _ _ _
  have hg6 : c6.gates = c5.gates
      ++ [Gate.bigMul (ns.getD 26 0) sik (ns.getD 25 0)
        c5.vars.length] :=
    f5 ▸ big_mul_gates _ _ _ _
  have hE5 : Extends c5 c6 :=
    f5 ▸ big_mul_extends _ _ _ _
  have eacc0 : acc0 = c5.vars.length := (congrArg Prod.snd h5).symm
  have hE15 : Extends c1 c5 :=
    (hE1.trans hE2).trans (hE3.trans hE4)
  have hl15 : c5.vars.length = c1.vars.length + 4 := by omega
  have hn26 : ns.getD 26 0 < c1.vars.length :=
    hnb _ (getD_mem ns 26 (by omega))
  have hn25 : ns.getD 25 0 < c1.vars.length :=
    hnb _ (getD_mem ns 25 (by omega))
  have hdig : ∀ j, j < 27 → c1.vars.getD (ns.getD j 0) 0
      = (decomposeDigits decompPairs r).getD j 0 := by
    intro j hj
    rw [← hraw, map_getD ns _ j (by omega)]
  have hE25 : Extends c2 c5 := hE2.trans (hE3.trans hE4)
  have hsikval : c5.vars.getD sik 0 = toMont 703 := by
    rw [esik, hE25.getD_eq (by omega), hval2]
  have hseed : c6.vars.getD acc0 0 =
      foldStep ((decomposeDigits decompPairs r).getD 26 0)
        (703, (decomposeDigits decompPairs r).getD 25 0) := by
    rw [← f5, eacc0,
      show c5.vars.length = (big_mul c5 (ns.getD 26 0) sik
        (ns.getD 25 0)).2 from rfl,
      big_mul_val]
    rw [hE15.getD_eq hn26, hE15.getD_eq hn25, hsikval,
      hdig 26 (by omega), hdig 25 (by omega)]
    rfl
  have hqsmem : ∀ p ∈ ((DECOMPOSITION_S_I.take 25).zip
      (ns.take 25)).reverse, p.2 < c6.vars.length := by
    intro p hp
    rw [List.mem_reverse] at hp
    have h21 := (List.of_mem_zip hp).2
    have h22 : p.2 ∈ ns := List.take_subset 25 ns h21
    have := hnb p.2 h22
    omega
  obtain ⟨hfext, hflt, hfval⟩ := horner_fold_spec _ c6 acc0
    (by omega) hqsmem
  rw [h6] at hfext hflt hfval
  dsimp only at hfext hflt hfval
  have hSlen : DECOMPOSITION_S_I.length = 27 := rfl
  have hqslen : (((DECOMPOSITION_S_I.take 25).zip
      (ns.take 25)).reverse).length = 25 := by
    simp [hnslen, hSlen]
  have hqs_ne : (((DECOMPOSITION_S_I.take 25).zip
      (ns.take 25)).reverse) ≠ [] := by
    intro h
    rw [h] at hqslen
    simp at hqslen
  have hlast := horner_fold_last (((DECOMPOSITION_S_I.take 25).zip
      (ns.take 25)).reverse) c6 acc0
  rw [h6] at hlast
  dsimp only at hlast
  have hacc1 : acc + 1 = c7.vars.length := by
    rcases hlast with ⟨hnil, _⟩ | h
    · exact absurd hnil hqs_ne
    · exact h
  have hdigval : (((DECOMPOSITION_S_I.take 25).zip
        (ns.take 25)).reverse).map (fun p => (p.1, c6.vars.getD p.2 0))
      = (((DECOMPOSITION_S_I.take 25).zip
        ((decomposeDigits decompPairs r).take 25)).reverse) := by
    rw [List.map_reverse]
    refine congrArg List.reverse ?_
    have step1 : ((DECOMPOSITION_S_I.take 25).zip (ns.take 25)).map
        (fun p => (p.1, c6.vars.getD p.2 0))
        = ((DECOMPOSITION_S_I.take 25).zip (ns.take 25)).map
        (fun p => (p.1, c1.vars.getD p.2 0)) := by
      refine List.map_congr_left ?_
      intro p hp
      have h21 := (List.of_mem_zip hp).2
      have h22 : p.2 ∈ ns := List.take_subset 25 ns h21
      refine congrArg (fun z => (p.1, z)) ?_
      exact (hE15.trans hE5).getD_eq (hnb p.2 h22)
    rw [step1,
      zip_map_snd (DECOMPOSITION_S_I.take 25) (ns.take 25)
        (fun z => c1.vars.getD z 0),
      List.map_take, hraw]
  have hd26lt : (decomposeDigits decompPairs r).getD 26 0 < 679 := by
    have := decomposeDigits_bound decompPairs r hr decompPairs_good
      (lt_of_lt_of_le hr (by rw [decompPairs_fst]; exact modulus_le_prod))
      26
    rw [decompPairs_fst] at this
    simpa using this
  have hdslen : (decomposeDigits decompPairs r).length = 27 := by
    rw [decomposeDigits_length, decompPairs_length]
  have haccval : c7.vars.getD acc 0 = r := by
    rw [hfval, hdigval, hseed]
    rw [show foldStep ((decomposeDigits decompPairs r).getD 26 0)
        (703, (decomposeDigits decompPairs r).getD 25 0)
      = List.foldl foldStep ((decomposeDigits decompPairs r).getD 26 0)
        [(703, (decomposeDigits decompPairs r).getD 25 0)] from rfl,
      ← List.foldl_append]
    have hsplit : [((703 : Nat),
          (decomposeDigits decompPairs r).getD 25 0)] ++
        ((DECOMPOSITION_S_I.take 25).zip
          ((decomposeDigits decompPairs r).take 25)).reverse
        = (((DECOMPOSITION_S_I.take 25) ++ [703]).zip
          (((decomposeDigits decompPairs r).take 25) ++
            [(decomposeDigits decompPairs r).getD 25 0])).reverse := by
      rw [zip_concat _ _ _ _ (by simp [hdslen, hSlen]), List.reverse_append]
      simp
    rw [hsplit,
      show (DECOMPOSITION_S_I.take 25) ++ [(703 : Nat)]
        = DECOMPOSITION_S_I.take 26 from rfl,
      take_concat_getD _ 25 (by omega),
      foldl_foldStep, List.foldl_reverse,
      foldr_recombine _ _ 679 _ (by simp [hdslen, hSlen])
        (lt_trans hd26lt (by decide)),
      show DECOMPOSITION_S_I.take 26 ++ [(679 : Nat)]
        = DECOMPOSITION_S_I from rfl,
      take_concat_getD _ 26 (by omega),
      show (26 : Nat) + 1 = 27 from rfl, ← hdslen, List.take_length,
      ← decompPairs_fst,
      decomp_recombine decompPairs r hr decompPairs_good (by decide),
      Nat.mod_eq_of_lt hr]
  obtain ⟨gsH, hgsH, hshapeH⟩ := horner_fold_gates
    (((DECOMPOSITION_S_I.take 25).zip (ns.take 25)).reverse) c6 acc0
  rw [h6] at hgsH
  rw [hres]
  refine ⟨?_, ?_, ?_, ?_, ?_, ?_, ?_⟩
  · exact ((((hE1.trans hE2).trans (hE3.trans hE4)).trans
      (hE5.trans hfext)).trans (constrain_extends c7 acc r))
  · exact hacc1
  · exact haccval
  · show Gate.constrain acc r ∈ c7.gates ++ [Gate.constrain acc r]
    exact List.mem_append_right _ (by simp)
  · refine ⟨[Gate.bigAdd 1 sik (MODULUS - 1) (ms.getD 25 0) c3.vars.length,
      Gate.bigAdd 1 sikr (MODULUS - 1) (ns.getD 25 0) c4.vars.length,
      Gate.bigMul (ns.getD 26 0) sik (ns.getD 25 0) c5.vars.length]
      ++ gsH ++ [Gate.constrain acc r], ?_, ?_, ?_⟩
    · show c7.gates ++ [Gate.constrain acc r] = _
      rw [hgsH, hg6, hg5, hg4, hg3, hg2]
      simp
    · intro g hg v b
      rcases List.mem_append.1 hg with hg | hg
      · rcases List.mem_append.1 hg with hg | hg
        · simp only [List.mem_cons, List.not_mem_nil, or_false] at hg
          rcases hg with hg | hg | hg <;>
          · rw [hg]
            intro hc
            cases hc
        · obtain ⟨a', b', d', o', hgm⟩ := hshapeH g hg
          rw [hgm]
          intro hc
          cases hc
      · simp only [List.mem_cons, List.not_mem_nil, or_false] at hg
        rw [hg]
        intro hc
        cases hc
    · intro v k hvk
      rcases List.mem_append.1 hvk with hg | hg
      · rcases List.mem_append.1 hg with hg | hg
        · simp only [List.mem_cons, List.not_mem_nil, or_false] at hg
          rcases hg with hg | hg | hg <;> exact Gate.noConfusion hg
        · obtain ⟨a', b', d', o', hgm⟩ := hshapeH _ hg
          exact Gate.noConfusion hgm
      · simp only [List.mem_cons, List.not_mem_nil, or_false] at hg
        injection hg with hv hk
  · show Gate.bigMul (ns.getD 26 0) c1.vars.length (ns.getD 25 0)
      (c1.vars.length + 4) ∈ c7.gates ++ [Gate.constrain acc r]
    refine List.mem_append_left _ ?_
    rw [hgsH, hg6]
    refine List.mem_append_left _ (List.mem_append_right _ ?_)
    rw [esik, hl15]
    simp
  · show (c7.vars.getD c1.vars.length 0) = toMont 703
    rw [hfext.getD_eq (by omega), hE5.getD_eq (by omega),
      (hE3.trans hE4).getD_eq (by omega), hE2.getD_eq (by omega), hval2]

/-- Full description of `decomposition_gadget` on the BLS12-381 radix
tables: the 27 returned handles are the raw-form digit witnesses (at even
offsets from the initial witness count), their stored values are the pure
mixed-radix digits, the unused Montgomery twins sit one index above, the
recomposition seed gate multiplies raw digit 26 by the fresh
Montgomery-form modulus witness and adds raw digit 25, and the final
equality gate pins the last allocated witness — whose value is exactly the
reduced input — to that same reduced input; no range gate is ever
emitted. -/
theorem decomposition_gadget_spec (c : Composer) (x : Nat) (r : Nat)
    (hrdef : r = fromMont (c.vars.getD x 0)) :
    Extends c (decomposition_gadget c x DECOMPOSITION_S_I INVERSES_S_I).1 ∧
    (decomposition_gadget c x DECOMPOSITION_S_I INVERSES_S_I).2.length
      = 27 ∧
    (∀ i ∈ (decomposition_gadget c x DECOMPOSITION_S_I INVERSES_S_I).2,
      i < (decomposition_gadget c x DECOMPOSITION_S_I
        INVERSES_S_I).1.vars.length) ∧
    (decomposition_gadget c x DECOMPOSITION_S_I INVERSES_S_I).2.map
      (fun i => (decomposition_gadget c x DECOMPOSITION_S_I
        INVERSES_S_I).1.vars.getD i 0)
      = decomposeDigits decompPairs r ∧
    (∀ j, j < 27 →
      (decomposition_gadget c x DECOMPOSITION_S_I INVERSES_S_I).2.getD j 0
        = c.vars.length + 2 * j) ∧
    Gate.bigMul (c.vars.length + 52) (c.vars.length + 54)
      (c.vars.length + 50) (c.vars.length + 58)
      ∈ (decomposition_gadget c x DECOMPOSITION_S_I INVERSES_S_I).1.gates ∧
    (decomposition_gadget c x DECOMPOSITION_S_I
        INVERSES_S_I).1.vars.getD (c.vars.length + 53) 0
      = toMont ((decomposeDigits decompPairs r).getD 26 0) ∧
    (decomposition_gadget c x DECOMPOSITION_S_I
        INVERSES_S_I).1.vars.getD (c.vars.length + 54) 0 = toMont 703 ∧
    Gate.constrain ((decomposition_gadget c x DECOMPOSITION_S_I
        INVERSES_S_I).1.vars.length - 1) r
      ∈ (decomposition_gadget c x DECOMPOSITION_S_I INVERSES_S_I).1.gates ∧
    (decomposition_gadget c x DECOMPOSITION_S_I INVERSES_S_I).1.vars.getD
      ((decomposition_gadget c x DECOMPOSITION_S_I
        INVERSES_S_I).1.vars.length - 1) 0 = r ∧
    (∃ gs, (decomposition_gadget c x DECOMPOSITION_S_I
        INVERSES_S_I).1.gates = c.gates ++ gs ∧
      (∀ g ∈ gs, ∀ v b, g ≠ Gate.range v b) ∧
      (∀ v k, Gate.constrain v k ∈ gs →
        v < (decomposition_gadget c x DECOMPOSITION_S_I
          INVERSES_S_I).1.vars.length)) := by
  have hr : r < MODULUS := hrdef ▸ fromMont_lt _
  obtain ⟨cl, ns, ms, hL⟩ : ∃ u v w,
      decompose_loop c (DECOMPOSITION_S_I.zip INVERSES_S_I) r
        = (u, v, w) := ⟨_, _, _, rfl⟩
  have hres : decomposition_gadget c x DECOMPOSITION_S_I INVERSES_S_I
      = ((decomp_check cl ns ms DECOMPOSITION_S_I r).1, ns) := by
    simp only [decomposition_gadget]
    rw [← hrdef, hL]
  have hL' : decompose_loop c decompPairs r = (cl, ns, ms) := hL
  obtain ⟨lext, llen, lgates, lnlen, lnidx, lmidx, lraw, lmont⟩ :=
    decompose_loop_spec decompPairs c r
  rw [hL'] at lext llen lgates lnlen lnidx lmidx lraw lmont
  dsimp only at lext llen lgates lnlen lnidx lmidx lraw lmont
  rw [decompPairs_length] at llen lnlen lnidx lmidx
  have hcllen : cl.vars.length = c.vars.length + 54 := by omega
  have hnsb : ∀ i ∈ ns, i < cl.vars.length := by
    intro i hi
    obtain ⟨⟨j, hj⟩, hget⟩ := List.mem_iff_get.1 hi
    have hj27 : j < 27 := by omega
    have : ns.getD j 0 = i := by
      rw [List.getD_eq_getElem ns 0 (by omega)]
      exact hget
    rw [← this, lnidx j hj27]
    omega
  obtain ⟨ckA, ckB, ckC, ckD, ckE, ckF, ckG⟩ :=
    decomp_check_spec cl ns ms r hr lnlen hnsb lraw
  have hdslen : (decomposeDigits decompPairs r).length = 27 := by
    rw [decomposeDigits_length, decompPairs_length]
  rw [hres]
  dsimp only
  refine ⟨?_, ?_, ?_, ?_, ?_, ?_, ?_, ?_, ?_, ?_, ?_⟩
  · exact lext.trans ckA
  · exact lnlen
  · intro i hi
    exact lt_of_lt_of_le (hnsb i hi) ckA.length_le
  · rw [← lraw]
    refine List.map_congr_left ?_
    intro i hi
    exact ckA.getD_eq (hnsb i hi)
  · exact lnidx
  · have e26 : ns.getD 26 0 = c.vars.length + 52 := lnidx 26 (by omega)
    have e25 : ns.getD 25 0 = c.vars.length + 50 := lnidx 25 (by omega)
    have e4 : cl.vars.length + 4 = c.vars.length + 58 := by omega
    rw [← e26, ← e4, ← hcllen, ← e25]
    exact ckF
  · have em26 : ms.getD 26 0 = c.vars.length + 53 := lmidx 26 (by omega)
    have hv : cl.vars.getD (ms.getD 26 0) 0
        = toMont ((decomposeDigits decompPairs r).getD 26 0) := by
      have := map_getD ms (fun i => cl.vars.getD i 0) 26 (by
        have : ms.length = 27 := by
          have h1 := congrArg (fun z => z.length) lmont
          simpa [hdslen] using h1
        omega)
      rw [lmont] at this
      dsimp only at this
      rw [← this, map_getD _ _ _ (by omega)]
    rw [← em26, ckA.getD_eq (by rw [em26]; omega), hv]
  · rw [← hcllen]
    exact ckG
  · have : (decomp_check cl ns ms DECOMPOSITION_S_I r).2
        = (decomp_check cl ns ms DECOMPOSITION_S_I r).1.vars.length - 1 :=
      by omega
    rw [← this]
    exact ckD
  · have : (decomp_check cl ns ms DECOMPOSITION_S_I r).2
        = (decomp_check cl ns ms DECOMPOSITION_S_I r).1.vars.length - 1 :=
      by omega
    rw [← this]
    exact ckC
  · obtain ⟨gs, hgs, hnr, hcon⟩ := ckE
    refine ⟨gs, ?_, hnr, ?_⟩
    · rw [hgs, lgates]
    · intro v k hvk
      rw [hcon v k hvk]
      omega

theorem Extends.zero_eq {c c' : Composer} (h : Extends c c') :
    c'.zero_var = c.zero_var := h.2.1

set_option maxRecDepth 4000 in
theorem sbox_entries_lt : ∀ e ∈ SBOX_BLS, e < MODULUS := by decide

theorem sboxFn_lt (v : Nat) (hv : v < MODULUS) : sboxFn v < MODULUS := by
  unfold sboxFn
  split
  · rcases Nat.lt_or_ge (v % 2 ^ 64) SBOX_BLS.length with h | h
    · exact sbox_entries_lt _ (getD_mem _ _ h)
    · rw [List.getD_eq_default _ _ h]
      exact modulus_pos
  · exact hv

/-- Behaviour of `bar_gadget`: the returned handle is a valid witness whose
field value is the Bar function of the input's reduced value, and no
equality-to-constant gate anywhere in the final circuit constrains a
witness as new as the returned handle. -/
theorem bar_gadget_spec (c : Composer) (x : Nat) (r : Nat)
    (hrdef : r = fromMont (c.vars.getD x 0))
    (hz1 : c.zero_var < c.vars.length)
    (hz2 : c.vars.getD c.zero_var 0 = 0) :
    (bar_gadget c x).2 < (bar_gadget c x).1.vars.length ∧
    fromMont ((bar_gadget c x).1.vars.getD (bar_gadget c x).2 0)
      = barFn r := by
  obtain ⟨cd, ns, hD⟩ : ∃ u v,
      decomposition_gadget c x DECOMPOSITION_S_I INVERSES_S_I = (u, v) :=
    ⟨_, _, rfl⟩
  obtain ⟨dext, dlen, dbound, dmap, _didx, _dseed, _dmont, _dm703, _dcon,
      _dconval, dgates⟩ := decomposition_gadget_spec c x r hrdef
  rw [hD] at dext dlen dbound dmap dgates
  dsimp only at dext dlen dbound dmap dgates
  obtain ⟨cs, tuple, hS⟩ : ∃ u v, sbox_all cd ns = (u, v) := ⟨_, _, rfl⟩
  obtain ⟨sext, sgates, slen, sbound, smap⟩ := sbox_all_spec ns cd dbound
  rw [hS] at sext sgates slen sbound smap
  dsimp only at sext sgates slen sbound smap
  obtain ⟨cb, acc0, hA⟩ : ∃ u v,
      big_add cs 1 cs.zero_var 1 (tuple.getD 26 0) = (u, v) := ⟨_, _, rfl⟩
  obtain ⟨cf, accf, hF⟩ : ∃ u v,
      horner_fold cb acc0 (((DECOMPOSITION_S_I.take 26).zip
        (tuple.take 26)).reverse) = (u, v) := ⟨_, _, rfl⟩
  have hres : bar_gadget c x = (cf, accf) := by
    simp only [bar_gadget]
    rw [hD]
    dsimp only
    rw [hS]
    dsimp only
    rw [hA]
    dsimp only
    rw [hF]
  have fA : (big_add cs 1 cs.zero_var 1 (tuple.getD 26 0)).1 = cb :=
    congrArg Prod.fst hA
  have eacc0 : acc0 = cs.vars.length := (congrArg Prod.snd hA).symm
  have hbl : cb.vars.length = cs.vars.length + 1 :=
    fA ▸ big_add_length cs 1 cs.zero_var 1 (tuple.getD 26 0)
  have hbg : cb.gates = cs.gates ++ [Gate.bigAdd 1 cs.zero_var 1
      (tuple.getD 26 0) cs.vars.length] :=
    fA ▸ big_add_gates cs 1 cs.zero_var 1 (tuple.getD 26 0)
  have hEb : Extends cs cb :=
    fA ▸ big_add_extends cs 1 cs.zero_var 1 (tuple.getD 26 0)
  have hds27 : (decomposeDigits decompPairs r).length = 27 := by
    rw [decomposeDigits_length, decompPairs_length]
  have htlen : tuple.length = 27 := by rw [slen, dlen]
  have tval : ∀ j, j < 27 → cs.vars.getD (tuple.getD j 0) 0
      = toMont (sboxFn ((decomposeDigits decompPairs r).getD j 0)) := by
    intro j hj
    have h1 := map_getD tuple (fun i => cs.vars.getD i 0) j (by omega)
    rw [smap] at h1
    dsimp only at h1
    have h2 := map_getD ns (fun i => toMont (sboxFn (cd.vars.getD i 0)))
      j (by omega)
    dsimp only at h2
    rw [h2] at h1
    have h3 := map_getD ns (fun i => cd.vars.getD i 0) j (by omega)
    rw [dmap] at h3
    dsimp only at h3
    rw [← h3] at h1
    exact h1.symm
  have hd26lt : (decomposeDigits decompPairs r).getD 26 0 < 679 := by
    have hr : r < MODULUS := hrdef ▸ fromMont_lt _
    have := decomposeDigits_bound decompPairs r hr decompPairs_good
      (lt_of_lt_of_le hr (by rw [decompPairs_fst]; exact modulus_le_prod))
      26
    rw [decompPairs_fst] at this
    simpa using this
  have hzcs : cs.vars.getD cs.zero_var 0 = 0 := by
    rw [(dext.trans sext).zero_eq, (dext.trans sext).getD_eq hz1, hz2]
  have hacc0val : cb.vars.getD acc0 0
      = toMont (sboxFn ((decomposeDigits decompPairs r).getD 26 0)) := by
    rw [← fA, eacc0,
      show cs.vars.length = (big_add cs 1 cs.zero_var 1
        (tuple.getD 26 0)).2 from rfl,
      big_add_val, hzcs, tval 26 (by omega)]
    simp only [Nat.one_mul, Nat.mul_zero, Nat.zero_add]
    exact Nat.mod_eq_of_lt (toMont_lt _)
  have hqsmem : ∀ p ∈ ((DECOMPOSITION_S_I.take 26).zip
      (tuple.take 26)).reverse, p.2 < cb.vars.length := by
    intro p hp
    rw [List.mem_reverse] at hp
    have h21 := (List.of_mem_zip hp).2
    have h22 : p.2 ∈ tuple := List.take_subset 26 tuple h21
    have := sbound p.2 h22
    omega
  obtain ⟨hfext, hflt, hfval⟩ := horner_fold_spec _ cb acc0
    (by omega) hqsmem
  rw [hF] at hfext hflt hfval
  dsimp only at hfext hflt hfval
  have hdigval2 : (((DECOMPOSITION_S_I.take 26).zip
        (tuple.take 26)).reverse).map (fun p => (p.1, cb.vars.getD p.2 0))
      = ((DECOMPOSITION_S_I.take 26).zip
        ((((decomposeDigits decompPairs r).map sboxFn).map
          toMont).take 26)).reverse := by
    rw [List.map_reverse]
    refine congrArg List.reverse ?_
    have step1 : ((DECOMPOSITION_S_I.take 26).zip (tuple.take 26)).map
        (fun p => (p.1, cb.vars.getD p.2 0))
        = ((DECOMPOSITION_S_I.take 26).zip (tuple.take 26)).map
        (fun p => (p.1, cs.vars.getD p.2 0)) := by
      refine List.map_congr_left ?_
      intro p hp
      have h21 := (List.of_mem_zip hp).2
      have h22 : p.2 ∈ tuple := List.take_subset 26 tuple h21
      exact congrArg (fun z => (p.1, z)) (hEb.getD_eq (sbound p.2 h22))
    rw [step1,
      zip_map_snd (DECOMPOSITION_S_I.take 26) (tuple.take 26)
        (fun z => cs.vars.getD z 0),
      List.map_take, smap]
    refine congrArg (fun z : List Nat =>
      (DECOMPOSITION_S_I.take 26).zip (z.take 26)) ?_
    have hmm1 : ns.map (fun i => toMont (sboxFn (cd.vars.getD i 0)))
        = (ns.map (fun i => cd.vars.getD i 0)).map
          (fun v => toMont (sboxFn v)) := by
      rw [List.map_map]
      rfl
    rw [hmm1, dmap, List.map_map]
    rfl
  have hts27 : ((decomposeDigits decompPairs r).map sboxFn).length = 27 :=
    by rw [List.length_map, hds27]
  have ht26 : ((decomposeDigits decompPairs r).map sboxFn).getD 26 0
      = sboxFn ((decomposeDigits decompPairs r).getD 26 0) :=
    map_getD _ _ 26 (by omega)
  have haccval : cf.vars.getD accf 0 = toMont (barFn r) := by
    rw [hfval, hdigval2, hacc0val, ← List.map_take, ← zip_map_snd,
      ← List.map_reverse, foldl_mont, ← ht26]
    refine congrArg toMont ?_
    rw [List.foldl_reverse,
      foldr_recombine _ _ 679 _
        (by simp [hts27, show DECOMPOSITION_S_I.length = 27 from rfl])
        (by
          rw [ht26]
          exact sboxFn_lt _ (lt_trans hd26lt (by decide))),
      show DECOMPOSITION_S_I.take 26 ++ [(679 : Nat)]
        = DECOMPOSITION_S_I from rfl,
      take_concat_getD _ 26 (by omega),
      show (26 : Nat) + 1 = 27 from rfl, ← hts27, List.take_length]
    rfl
  rw [hres]
  dsimp only
  refine ⟨hflt, ?_⟩
  rw [haccval]
  exact fromMont_toMont _ (by
    unfold barFn
    exact Nat.mod_lt _ modulus_pos)

/-- The constrain-gate bookkeeping of `bar_gadget` alone: if every
equality-to-constant gate already in the composer constrains an existing
witness, then every equality-to-constant gate in the finished circuit
constrains a witness strictly older than the returned output handle. -/
theorem bar_gadget_constrain (c : Composer) (x : Nat)
    (hc : ∀ v k, Gate.constrain v k ∈ c.gates → v < c.vars.length) :
    ∀ v k, Gate.constrain v k ∈ (bar_gadget c x).1.gates →
      v < (bar_gadget c x).2 := by
  obtain ⟨cd, ns, hD⟩ : ∃ u v,
      decomposition_gadget c x DECOMPOSITION_S_I INVERSES_S_I = (u, v) :=
    ⟨_, _, rfl⟩
  obtain ⟨dext, _dlen, dbound, _dmap, _didx, _dseed, _dmont, _dm703, _dcon,
      _dconval, dgates⟩ := decomposition_gadget_spec c x
    (fromMont (c.vars.getD x 0)) rfl
  rw [hD] at dext dbound dgates
  dsimp only at dext dbound dgates
  obtain ⟨cs, tuple, hS⟩ : ∃ u v, sbox_all cd ns = (u, v) := ⟨_, _, rfl⟩
  obtain ⟨sext, sgates, _slen, sbound, _smap⟩ := sbox_all_spec ns cd dbound
  rw [hS] at sext sgates sbound
  dsimp only at sext sgates sbound
  obtain ⟨cb, acc0, hA⟩ : ∃ u v,
      big_add cs 1 cs.zero_var 1 (tuple.getD 26 0) = (u, v) := ⟨_, _, rfl⟩
  obtain ⟨cf, accf, hF⟩ : ∃ u v,
      horner_fold cb acc0 (((DECOMPOSITION_S_I.take 26).zip
        (tuple.take 26)).reverse) = (u, v) := ⟨_, _, rfl⟩
  have hres : bar_gadget c x = (cf, accf) := by
    simp only [bar_gadget]
    rw [hD]
    dsimp only
    rw [hS]
    dsimp only
    rw [hA]
    dsimp only
    rw [hF]
  have fA : (big_add cs 1 cs.zero_var 1 (tuple.getD 26 0)).1 = cb :=
    congrArg Prod.fst hA
  have eacc0 : acc0 = cs.vars.length := (congrArg Prod.snd hA).symm
  have hbl : cb.vars.length = cs.vars.length + 1 :=
    fA ▸ big_add_length cs 1 cs.zero_var 1 (tuple.getD 26 0)
  have hbg : cb.gates = cs.gates ++ [Gate.bigAdd 1 cs.zero_var 1
      (tuple.getD 26 0) cs.vars.length] :=
    fA ▸ big_add_gates cs 1 cs.zero_var 1 (tuple.getD 26 0)
  have hccb : ∀ v k, Gate.constrain v k ∈ cb.gates → v < acc0 := by
    intro v k h
    rw [hbg] at h
    rcases List.mem_append.1 h with h | h
    · rw [sgates] at h
      obtain ⟨gs, hgs, _, hcon⟩ := dgates
      rw [hgs] at h
      rcases List.mem_append.1 h with h | h
      · have h1 := hc v k h
        have h2 := dext.length_le
        have h3 := sext.length_le
        omega
      · have h1 := hcon v k h
        have h3 := sext.length_le
        omega
    · simp only [List.mem_cons, List.not_mem_nil, or_false] at h
      exact Gate.noConfusion h
  have hcf := horner_fold_constrain (((DECOMPOSITION_S_I.take 26).zip
      (tuple.take 26)).reverse) cb acc0 (by omega) hccb
  rw [hF] at hcf
  dsimp only at hcf
  rw [hres]
  exact hcf

/-! Claim theorems. -/

/-- C1: Round-trip — for every representable field element (any stored
limb value, reduced on entry by the gadget), the 27 digits produced by
`decomposition_gadget(x, DECOMPOSITION_S_I, INVERSES_S_I)`, recombined
without substitution by the mixed-radix Horner weighting over the moduli
`DECOMPOSITION_S_I`, reproduce x's reduced value exactly (as a natural
number, not merely modulo the field order). -/
theorem claim1_roundtrip (c : Composer) (x : Nat) :
    recombine DECOMPOSITION_S_I
      ((decomposition_gadget c x DECOMPOSITION_S_I INVERSES_S_I).2.map
        (fun i => (decomposition_gadget c x DECOMPOSITION_S_I
          INVERSES_S_I).1.vars.getD i 0))
      = fromMont (c.vars.getD x 0) := by
  obtain ⟨_, _, _, dmap, _, _, _, _, _, _, _⟩ :=
    decomposition_gadget_spec c x (fromMont (c.vars.getD x 0)) rfl
  rw [dmap, ← decompPairs_fst]
  exact decomp_recombine decompPairs _ (fromMont_lt _) decompPairs_good
    (by decide)

/-- C2: Digit bound — for every field element and every index k in 0..27,
the k-th digit handle returned by `decomposition_gadget` stores a value
strictly less than the k-th radix modulus `DECOMPOSITION_S_I[k]`,
including the final digit k = 26, which is taken without a further
reduction step. -/
theorem claim2_digit_bound (c : Composer) (x : Nat) (k : Nat)
    (hk : k < 27) :
    (decomposition_gadget c x DECOMPOSITION_S_I INVERSES_S_I).1.vars.getD
      ((decomposition_gadget c x DECOMPOSITION_S_I INVERSES_S_I).2.getD
        k 0) 0
      < DECOMPOSITION_S_I.getD k 0 := by
  obtain ⟨_, dlen, _, dmap, _, _, _, _, _, _, _⟩ :=
    decomposition_gadget_spec c x (fromMont (c.vars.getD x 0)) rfl
  have h1 := map_getD (decomposition_gadget c x DECOMPOSITION_S_I
      INVERSES_S_I).2
    (fun i => (decomposition_gadget c x DECOMPOSITION_S_I
      INVERSES_S_I).1.vars.getD i 0) k (by omega)
  rw [dmap] at h1
  dsimp only at h1
  rw [← h1]
  have hr : fromMont (c.vars.getD x 0) < MODULUS := fromMont_lt _
  have hb := decomposeDigits_bound decompPairs (fromMont (c.vars.getD x 0))
    hr decompPairs_good
    (lt_of_lt_of_le hr (by rw [decompPairs_fst]; exact modulus_le_prod)) k
  rw [decompPairs_fst] at hb
  have hS : DECOMPOSITION_S_I.length = 27 := rfl
  rwa [List.getD_eq_getElem DECOMPOSITION_S_I 1 (by omega),
    ← List.getD_eq_getElem DECOMPOSITION_S_I 0 (by omega)] at hb

/-- C3: Bar contract — for every input handle (in a composer whose zero
wire is a valid witness storing zero), `bar_gadget` returns one output
handle, a valid witness whose field value equals the Bar function of the
input: the mixed-radix Horner recomposition over `DECOMPOSITION_S_I` of
the input's 27 decomposition digits after each digit is independently
substituted through `sboxFn` (the table lookup, identity at or above
659). -/
theorem claim3_bar_contract (c : Composer) (x : Nat)
    (hz1 : c.zero_var < c.vars.length)
    (hz2 : c.vars.getD c.zero_var 0 = 0) :
    (bar_gadget c x).2 < (bar_gadget c x).1.vars.length ∧
    fromMont ((bar_gadget c x).1.vars.getD (bar_gadget c x).2 0)
      = barFn (fromMont (c.vars.getD x 0)) := by
  exact bar_gadget_spec c x (fromMont (c.vars.getD x 0)) rfl hz1 hz2

/-- C5: Substitution contract — for every input handle bound to reduced
digit value v below the modulus, `s_box` returns a fresh handle bound to
`SBOX_BLS[v]` (allocated in internal/Montgomery form, so its field value
is the table entry) when v < 659, and bound to the unchanged value v when
v ≥ 659. -/
theorem claim5_sbox_contract (c : Composer) (input v : Nat)
    (hv : c.vars.getD input 0 = v) (hvq : v < MODULUS) :
    (s_box c input).2 = c.vars.length ∧
    fromMont ((s_box c input).1.vars.getD (s_box c input).2 0)
      = if v < 659 then SBOX_BLS.getD v 0 else v := by
  refine ⟨rfl, ?_⟩
  have h1 : (s_box c input).1.vars.getD (s_box c input).2 0
      = toMont (sboxFn v) := by
    rw [show s_box c input
      = add_input c (toMont (sboxFn (c.vars.getD input 0))) from rfl, hv]
    exact add_input_val c _
  rw [h1, fromMont_toMont _ (sboxFn_lt v hvq)]
  unfold sboxFn
  split
  · rename_i h
    rw [Nat.mod_eq_of_lt (lt_trans h (by decide))]
  · rfl

set_option maxRecDepth 4000 in
/-- C10: Implicit in-bounds indexing — whenever `s_box` takes the
substitution branch (the 256-bit stored value compares strictly below
659), the table index it uses, the value's low 64-bit limb
`value % 2^64`, is itself strictly below the table length 659, so the
access `SBOX_BLS[value.0[0] as usize]` is within bounds; on that branch
`sboxFn` is exactly that table access. -/
theorem claim10_sbox_index (value : Nat) (h : value < 659) :
    value % 2 ^ 64 < SBOX_BLS.length ∧
    sboxFn value = SBOX_BLS.getD (value % 2 ^ 64) 0 := by
  constructor
  · have h1 : value % 2 ^ 64 ≤ value := Nat.mod_le _ _
    have h2 : SBOX_BLS.length = 659 := rfl
    omega
  · unfold sboxFn
    rw [if_pos h]

/-- C10 witness: concrete instance at value 5. -/
theorem claim10_witness :
    5 % 2 ^ 64 < SBOX_BLS.length ∧
    sboxFn 5 = SBOX_BLS.getD (5 % 2 ^ 64) 0 :=
  claim10_sbox_index 5 (by decide)

/-- C2 witness: concrete instance at the input with reduced value 5 and
the final digit index 26. -/
theorem claim2_witness :
    (decomposition_gadget (exampleComposer 5) 1 DECOMPOSITION_S_I
        INVERSES_S_I).1.vars.getD
      ((decomposition_gadget (exampleComposer 5) 1 DECOMPOSITION_S_I
        INVERSES_S_I).2.getD 26 0) 0
      < DECOMPOSITION_S_I.getD 26 0 :=
  claim2_digit_bound (exampleComposer 5) 1 26 (by decide)

/-- C3 witness: concrete instance at the input with reduced value 1. -/
theorem claim3_witness :
    (bar_gadget (exampleComposer 1) 1).2
      < (bar_gadget (exampleComposer 1) 1).1.vars.length ∧
    fromMont ((bar_gadget (exampleComposer 1) 1).1.vars.getD
      (bar_gadget (exampleComposer 1) 1).2 0)
      = barFn (fromMont ((exampleComposer 1).vars.getD 1 0)) :=
  claim3_bar_contract (exampleComposer 1) 1 (by decide) rfl

/-- C5 witness: concrete instance at the out-of-domain digit value 700
(the identity branch). -/
theorem claim5_witness :
    (s_box (rawComposer 700) 1).2 = (rawComposer 700).vars.length ∧
    fromMont ((s_box (rawComposer 700) 1).1.vars.getD
      (s_box (rawComposer 700) 1).2 0)
      = if 700 < 659 then SBOX_BLS.getD 700 0 else 700 :=
  claim5_sbox_contract (rawComposer 700) 1 700 rfl (by decide)

/-- C4 counterexample: at the concrete input with reduced value 2, the
fully built `decomposition_gadget` circuit contains no range-check gate at
all — the claimed per-digit range gates are never emitted. -/
theorem claim4_counterexample :
    ((decomposition_gadget (exampleComposer 2) 1 DECOMPOSITION_S_I
        INVERSES_S_I).1.gates.all (fun g => !isRange g)) = true := by
  rfl

/-- C4 amended: `decomposition_gadget` emits no range-check gate for any
digit; the bumped-to-even bound `rangeBound` is computed and discarded
(lines 48-52), and only addition, multiplication and one
equality-to-constant gate are appended. -/
theorem claim4_amended (c : Composer) (x : Nat)
    (hng : (c.gates.all fun g => !isRange g) = true) :
    ((decomposition_gadget c x DECOMPOSITION_S_I INVERSES_S_I).1.gates.all
      fun g => !isRange g) = true := by
  obtain ⟨_, _, _, _, _, _, _, _, _, _, gs, hgs, hnr, _⟩ :=
    decomposition_gadget_spec c x (fromMont (c.vars.getD x 0)) rfl
  rw [hgs, List.all_append, hng, Bool.true_and, List.all_eq_true]
  intro g hg
  cases g with
  | range v b => exact absurd rfl (hnr _ hg v b)
  | bigAdd w1 a w2 b o => rfl
  | bigMul a b d o => rfl
  | constrain v k => rfl

/-- C4 amended witness: concrete instance at the input with reduced value
3 on a fresh composer. -/
theorem claim4_amended_witness :
    ((decomposition_gadget (exampleComposer 3) 1 DECOMPOSITION_S_I
        INVERSES_S_I).1.gates.all fun g => !isRange g) = true :=
  claim4_amended (exampleComposer 3) 1 rfl

set_option maxRecDepth 8000 in
/-- C6: the 659-entry table `SBOX_BLS` is not a permutation of [0, 659):
entry 319 (line 746, `u256([67, 10, 0, 0])`) equals `67 + 10·2^64`, which
is not below 659, and the value 167 never occurs in the table. -/
theorem claim6_sbox_entry_319 :
    SBOX_BLS.getD 319 0 = 67 + 10 * 2 ^ 64 ∧
    ¬ SBOX_BLS.getD 319 0 < 659 ∧
    SBOX_BLS.length = 659 ∧
    167 ∉ SBOX_BLS := by
  refine ⟨by decide, by decide, by decide, by decide⟩

/-- C7 counterexample: at the concrete input with reduced value
`MODULUS - 1` (digit 26 = 678), the seed multiplication gate of the
recomposition check is `bigMul 54 56 52 60`: its digit operands are
witnesses 54 and 52 — the raw-form `nibbles` (witness 54 stores the raw
digit 678) — while the Montgomery-allocated digit witness sits unused at
index 55 with the distinct value `toMont 678`.  The fold therefore does
not use the Montgomery digit witnesses. -/
theorem claim7_counterexample :
    (decomposition_gadget (exampleComposer (MODULUS - 1)) 1
        DECOMPOSITION_S_I INVERSES_S_I).1.gates.getD 2
        (Gate.constrain 0 0)
      = Gate.bigMul 54 56 52 60 ∧
    (decomposition_gadget (exampleComposer (MODULUS - 1)) 1
        DECOMPOSITION_S_I INVERSES_S_I).1.vars.getD 54 0 = 678 ∧
    (decomposition_gadget (exampleComposer (MODULUS - 1)) 1
        DECOMPOSITION_S_I INVERSES_S_I).1.vars.getD 55 0 = toMont 678 ∧
    (678 : Nat) ≠ toMont 678 := by
  refine ⟨by rfl, by rfl, by rfl, by decide⟩

/-- C7 amended: the recomposition check inside `decomposition_gadget`
folds the reduced-form (raw-limb) digit witnesses — `nibbles`, at offsets
+52, +50, ... — with freshly-allocated internal-representation moduli
(offset +54 stores the Montgomery form of `s_i[25] = 703`); the
Montgomery-allocated digit witnesses (offset +53 for digit 26) are left
unused.  Because the raw limbs of the reduced-form witnesses are the raw
digits and the final constant is the raw reduced input, the accumulator
pinned by the final equality gate nevertheless stores exactly the reduced
input, so the check is satisfied. -/
theorem claim7_amended (c : Composer) (x : Nat) :
    Gate.bigMul (c.vars.length + 52) (c.vars.length + 54)
      (c.vars.length + 50) (c.vars.length + 58)
      ∈ (decomposition_gadget c x DECOMPOSITION_S_I INVERSES_S_I).1.gates ∧
    (decomposition_gadget c x DECOMPOSITION_S_I INVERSES_S_I).1.vars.getD
        (c.vars.length + 52) 0
      = (decomposeDigits decompPairs
          (fromMont (c.vars.getD x 0))).getD 26 0 ∧
    (decomposition_gadget c x DECOMPOSITION_S_I INVERSES_S_I).1.vars.getD
        (c.vars.length + 53) 0
      = toMont ((decomposeDigits decompPairs
          (fromMont (c.vars.getD x 0))).getD 26 0) ∧
    (decomposition_gadget c x DECOMPOSITION_S_I INVERSES_S_I).1.vars.getD
        (c.vars.length + 54) 0 = toMont 703 ∧
    Gate.constrain ((decomposition_gadget c x DECOMPOSITION_S_I
        INVERSES_S_I).1.vars.length - 1) (fromMont (c.vars.getD x 0))
      ∈ (decomposition_gadget c x DECOMPOSITION_S_I INVERSES_S_I).1.gates ∧
    (decomposition_gadget c x DECOMPOSITION_S_I INVERSES_S_I).1.vars.getD
        ((decomposition_gadget c x DECOMPOSITION_S_I
          INVERSES_S_I).1.vars.length - 1) 0
      = fromMont (c.vars.getD x 0) := by
  obtain ⟨_, dlen, _, dmap, didx, dseed, dmont, dm703, dcon, dconval, _⟩ :=
    decomposition_gadget_spec c x (fromMont (c.vars.getD x 0)) rfl
  refine ⟨dseed, ?_, dmont, dm703, dcon, dconval⟩
  have h1 := map_getD (decomposition_gadget c x DECOMPOSITION_S_I
      INVERSES_S_I).2
    (fun i => (decomposition_gadget c x DECOMPOSITION_S_I
      INVERSES_S_I).1.vars.getD i 0) 26 (by omega)
  rw [dmap] at h1
  dsimp only at h1
  have didx26 : (decomposition_gadget c x DECOMPOSITION_S_I
      INVERSES_S_I).2.getD 26 0 = c.vars.length + 52 :=
    didx 26 (by omega)
  rw [← didx26]
  exact h1.symm

/-- C8: Bar output stays private — given a composer whose existing
equality-to-constant gates all constrain existing witnesses, `bar_gadget`
applies no equality-to-public-constant gate to its final output handle:
after the 27-digit recomposition fold the accumulator is returned as-is,
and every equality gate in the finished circuit constrains a strictly
older witness. -/
theorem claim8_output_private (c : Composer) (x : Nat)
    (hc : (c.gates.all fun g => constrainIndexLt g c.vars.length)
      = true) :
    ((bar_gadget c x).1.gates.all
      fun g => !(constrainsVar g (bar_gadget c x).2)) = true := by
  rw [List.all_eq_true] at hc ⊢
  have hc' : ∀ v k, Gate.constrain v k ∈ c.gates → v < c.vars.length := by
    intro v k h
    have := hc _ h
    exact of_decide_eq_true this
  have hmain := bar_gadget_constrain c x hc'
  intro g hg
  cases g with
  | constrain v k =>
    have := hmain v k hg
    simp only [constrainsVar, Bool.not_eq_true']
    exact beq_false_of_ne (Nat.ne_of_lt this)
  | bigAdd w1 a w2 b o => rfl
  | bigMul a b d o => rfl
  | range v b => rfl

/-- C8 witness: concrete instance at the input with reduced value 7 on a
fresh composer. -/
theorem claim8_witness :
    ((bar_gadget (exampleComposer 7) 1).1.gates.all
      fun g => !(constrainsVar g (bar_gadget (exampleComposer 7) 1).2))
      = true :=
  claim8_output_private (exampleComposer 7) 1 rfl

end Zelbet
